import Mathlib

/-!
# Verification of the `rbtree` package (Red-Black tree)

A shallow embedding of `rbtree/rbtree.go`, specialised to `Int` values with the
natural comparator (`compare a b` is negative iff `a < b`, zero iff `a = b`).

The Go implementation is an imperative CLRS-style red-black tree whose nodes
carry `parent` pointers and whose rebalancing loops (`insertFixup`,
`deleteFixup`) walk up those pointers.  The embedding represents a node
together with its chain of parents as a zipper: a focused subtree plus a
`Path`, a list of `Frame`s, innermost first.  A frame records, for one
ancestor, the direction the focus hangs off it (`d`), the ancestor's color
(`c`) and value (`v`), and the sibling subtree on the other side (`sib`).
Reading `n.parent` is reading the head frame; `n.parent.parent` the second
frame; a rotation is a local rearrangement of frames and subtrees.  A nil
pointer dereference in Go (reading a field of an absent node) is modelled by
returning `none`.

The two rebalancing loops are embedded with explicit fuel, one unit per
iteration of the Go `for` loop, so that their termination is a provable
statement rather than an assumption: `none` means the fuel ran out,
`some none` means the Go code would dereference nil, `some (some _)` is a
normal result.
-/

namespace RBT

inductive Color where
  | red : Color
  | black : Color
deriving DecidableEq

/-- A tree node: `node c l v r` has color `c`, left child `l`, value `v`,
right child `r`.  `nil` is the absent child (Go `nil` pointer). -/
inductive Tree where
  | nil : Tree
  | node (c : Color) (l : Tree) (v : Int) (r : Tree) : Tree
deriving DecidableEq

inductive Dir where
  | left : Dir
  | right : Dir
deriving DecidableEq

/-- One ancestor on the path from a focused node to the root: the focus is the
`d`-child of a node with color `c` and value `v` whose other child is `sib`. -/
structure Frame where
  d : Dir
  c : Color
  v : Int
  sib : Tree
deriving DecidableEq

/-- The chain of parents of a focused node, innermost (immediate parent) first. -/
abbrev Path := List Frame

/-- Rebuild the parent node from a frame and the subtree focused under it. -/
def plugFrame (f : Frame) (t : Tree) : Tree :=
  match f.d with
  | .left => .node f.c t f.v f.sib
  | .right => .node f.c f.sib f.v t

/-- Rebuild the whole tree from a path and the focused subtree. -/
def plugPath (p : Path) (t : Tree) : Tree :=
  p.foldl (fun acc f => plugFrame f acc) t

/-- `RedBlackTree` (Go struct): root and size.  `size` is Go's `int`. -/
structure RBTree where
  root : Tree
  size : Int
deriving DecidableEq

/-- `New`: a new empty tree. -/
def new : RBTree := ⟨.nil, 0⟩

/-- `Len`: number of nodes as recorded by the `size` field. -/
def len (t : RBTree) : Int := t.size

/-- `IsEmpty`: `size == 0`. -/
def isEmpty (t : RBTree) : Bool := t.size == 0

/-- `Clear`: drop the root and reset the size. -/
def clear (_ : RBTree) : RBTree := ⟨.nil, 0⟩

/-- `Search` on a subtree: descend comparing, `cmp == 0` first, then `cmp < 0`. -/
def search (x : Int) : Tree → Bool
  | .nil => false
  | .node _ l v r =>
    if x = v then true
    else if x < v then search x l
    else search x r

/-- `InOrderTraversal`: the list of values visited (left, node, right). -/
def inorder : Tree → List Int
  | .nil => []
  | .node _ l v r => inorder l ++ v :: inorder r

/-- `Height` of a subtree, counting edges; `-1` for an absent tree. -/
def height : Tree → Int
  | .nil => -1
  | .node _ l _ r => max (height l) (height r) + 1

/-- `Height` of the whole tree. -/
def heightT (t : RBTree) : Int := height t.root

/-- Paint the root of a subtree black (`n.color = Black`); no-op on nil,
matching every Go site which guards the write with a nil check or has a
non-nil receiver. -/
def setBlack : Tree → Tree
  | .nil => .nil
  | .node _ l v r => .node .black l v r

def isRed : Tree → Bool
  | .node .red _ _ _ => true
  | _ => false

/-- Go's `n == nil || n.color == Black`. -/
def nilOrBlack (t : Tree) : Bool := !isRed t

/-- The step result of one iteration of a rebalancing `for` loop:
`inl` = the loop's condition (or a `break`) ends the loop in this state,
`inr` = the loop continues from this state. -/
abbrev Step := (Path × Tree) ⊕ (Path × Tree)

/-! ## insertFixup (lines 97-142) as an iteration relation -/

/-- One test-plus-body iteration of the `insertFixup` loop (lines 103-140).
The focus `n` is the current node, `p` its chain of parents.
`none`: the Go code dereferences a nil pointer (`n.parent.parent` when the
parent is red and has no parent). -/
def insStep (p : Path) (n : Tree) : Option Step :=
  match p with
  | [] => some (.inl ([], n))                    -- n.parent == nil: loop condition fails
  | f :: rest =>
    if f.c = .black then some (.inl (f :: rest, n))   -- parent not Red: loop condition fails
    else
      match rest with
      | [] => none                               -- n.parent.parent is nil: dereference panics
      | g :: rest2 =>
        match g.d with
        | .left =>                               -- n.parent == n.parent.parent.left (line 104)
          let uncle := g.sib                     -- n.parent.parent.right (line 105)
          if isRed uncle then
            -- lines 106-110: parent black, uncle black, grandparent red; n = grandparent
            let n2 := Tree.node .red (plugFrame ⟨f.d, .black, f.v, f.sib⟩ n) g.v (setBlack uncle)
            some (if rest2 = [] then .inl ([], n2) else .inr (rest2, n2))  -- line 137 root check
          else
            match f.d with
            | .left =>
              -- lines 116-118 with n unchanged: parent black, grandparent red,
              -- rotateRight(grandparent); the focus keeps its position under the old parent
              some (.inr (⟨.left, .black, f.v, .node .red f.sib g.v g.sib⟩ :: rest2, n))
            | .right =>
              -- lines 112-115: n = n.parent; rotateLeft(n); then lines 116-118
              match n with
              | .nil => none                     -- rotateLeft would read y.left of a nil y
              | .node nc a xv b =>
                -- after rotateLeft the old parent (now focus) is the left child of the
                -- old focus node, and rotateRight(grandparent) restructures as below
                some (.inr (⟨.left, .black, xv, .node .red b g.v g.sib⟩ :: rest2,
                            .node f.c f.sib f.v a))
        | .right =>                              -- mirror of the above (lines 120-135)
          let uncle := g.sib                     -- n.parent.parent.left (line 121)
          if isRed uncle then
            let n2 := Tree.node .red (setBlack uncle) g.v (plugFrame ⟨f.d, .black, f.v, f.sib⟩ n)
            some (if rest2 = [] then .inl ([], n2) else .inr (rest2, n2))
          else
            match f.d with
            | .right =>
              some (.inr (⟨.right, .black, f.v, .node .red g.sib g.v f.sib⟩ :: rest2, n))
            | .left =>
              match n with
              | .nil => none
              | .node nc a xv b =>
                some (.inr (⟨.right, .black, xv, .node .red g.sib g.v a⟩ :: rest2,
                            .node f.c b f.v f.sib))

/-- The `insertFixup` loop with one unit of fuel per iteration.
`none` = fuel exhausted; `some none` = nil dereference; on normal exit the
whole tree is rebuilt and its root painted black (line 141). -/
def insLoopF : Nat → Path → Tree → Option (Option Tree)
  | 0, _, _ => none
  | fuel + 1, p, n =>
    match insStep p n with
    | none => some none
    | some (.inl (p2, n2)) => some (some (setBlack (plugPath p2 n2)))
    | some (.inr (p2, n2)) => insLoopF fuel p2 n2

/-- `insertFixup(n)`: the nil-parent early return (lines 98-101) coincides with
running the loop from an empty path, so both are the loop with enough fuel. -/
def insertFixup (p : Path) (n : Tree) : Option Tree :=
  (insLoopF (p.length + 2) p n).join

/-- The descent of `Insert` (lines 70-83), returning the context of the nil
position where the new node is attached (lines 85-90); `none` models the
mid-loop `return` on an equal value (line 77). -/
def insertPos (x : Int) : Tree → Option Path
  | .nil => some []
  | .node c l v r =>
    if x = v then none
    else if x < v then (insertPos x l).map (fun p => p ++ [⟨.left, c, v, r⟩])
    else (insertPos x r).map (fun p => p ++ [⟨.right, c, v, l⟩])

/-- `Insert` (lines 52-94).  `none` propagates a nil dereference inside
`insertFixup` (never reached from a valid tree). -/
def insert (t : RBTree) (x : Int) : Option RBTree :=
  if search x t.root then some t                 -- line 54: no duplicates
  else
    match insertPos x t.root with
    | none => some t                             -- line 77: duplicate found mid-descent
    | some p =>
      (insertFixup p (.node .red .nil x .nil)).map (fun r => ⟨r, t.size + 1⟩)

/-! ## deleteFixup (lines 300-369) as an iteration relation -/

/-- Common part of a `deleteFixup` iteration once the sibling `w` of the
(left-hanging) focus is a known node `node _ wl wv wr` and the parent frame has
color `fc` and value `fv` with outer path `q` (lines 310-331).  Terminal cases
rebuild the whole tree and exit in root position (`n = t.root; break`). -/
def dfBodyL (fc : Color) (fv : Int) (q : Path) (n wl : Tree) (wv : Int) (wr : Tree) :
    Option Step :=
  if nilOrBlack wl && nilOrBlack wr then
    -- case 2 (lines 310-314): w.color = Red; n = parent; parent = n.parent
    some (.inr (q, .node fc n fv (.node .red wl wv wr)))
  else if nilOrBlack wr then
    -- case 3 (lines 316-323): w.left.color = Black; w.color = Red; rotateRight(w)
    match wl with
    | .nil => none                               -- rotateRight reads x.right of a nil x
    | .node _ a av b =>
      -- then case 4 (lines 324-331) with the rotated sibling
      some (.inl ([], plugPath q (.node fc (.node .black n fv a) av (.node .black b wv wr))))
  else
    -- case 4 (lines 324-331): w.color = parent.color; parent.color = Black;
    -- w.right.color = Black; rotateLeft(parent); n = t.root; break
    some (.inl ([], plugPath q (.node fc (.node .black n fv wl) wv (setBlack wr))))

/-- Mirror of `dfBodyL` for a right-hanging focus (lines 333-363). -/
def dfBodyR (fc : Color) (fv : Int) (q : Path) (n wl : Tree) (wv : Int) (wr : Tree) :
    Option Step :=
  if nilOrBlack wr && nilOrBlack wl then
    some (.inr (q, .node fc (.node .red wl wv wr) fv n))
  else if nilOrBlack wl then
    -- case 3 (lines 347-353): w.right.color = Black; w.color = Red; rotateLeft(w)
    match wr with
    | .nil => none                               -- rotateLeft reads y.left of a nil y
    | .node _ a av b =>
      -- then case 4 (lines 355-362) with the rotated sibling
      some (.inl ([], plugPath q (.node fc (.node .black wl wv a) av (.node .black b fv n))))
  else
    -- case 4 (lines 355-362): w.color = parent.color; parent.color = Black;
    -- w.left.color = Black; rotateRight(parent); n = t.root; break
    some (.inl ([], plugPath q (.node fc (setBlack wl) wv (.node .black wr fv n))))

/-- One test-plus-body iteration of the `deleteFixup` loop (lines 301-365).
The focus `n` may be `nil` (Go passes the possibly-nil spliced child `x`).
`none`: the sibling read on line 303/334 dereferences nil, or a rotation does. -/
def dfStep (p : Path) (n : Tree) : Option Step :=
  match p with
  | [] => some (.inl ([], n))                    -- n == t.root: loop condition fails
  | f :: rest =>
    if isRed n then some (.inl (f :: rest, n))   -- n non-nil and red: condition fails
    else
      match f.d with
      | .left =>
        match f.sib with                         -- w := parent.right (line 303)
        | .nil => none                           -- line 304 reads w.color of nil
        | .node wc wl wv wr =>
          if wc = .red then
            -- lines 304-308: w black, parent red, rotateLeft(parent), w = parent.right
            match wl with
            | .nil => none                       -- line 310 reads w.left of the new nil w
            | .node _ u2 v2 w2 =>
              dfBodyL .red f.v (⟨.left, .black, wv, wr⟩ :: rest) n u2 v2 w2
          else
            dfBodyL f.c f.v rest n wl wv wr
      | .right =>
        match f.sib with                         -- w := parent.left (line 334)
        | .nil => none
        | .node wc wl wv wr =>
          if wc = .red then
            match wr with
            | .nil => none                       -- line 341 reads w.right of the new nil w
            | .node _ u2 v2 w2 =>
              dfBodyR .red f.v (⟨.right, .black, wv, wl⟩ :: rest) n u2 v2 w2
          else
            dfBodyR f.c f.v rest n wl wv wr

/-- The `deleteFixup` loop with one unit of fuel per iteration.  On exit the
current node, if non-nil, is painted black (lines 366-368) and the tree is
rebuilt. -/
def dfLoopF : Nat → Path → Tree → Option (Option Tree)
  | 0, _, _ => none
  | fuel + 1, p, n =>
    match dfStep p n with
    | none => some none
    | some (.inl (p2, n2)) => some (some (plugPath p2 (setBlack n2)))
    | some (.inr (p2, n2)) => dfLoopF fuel p2 n2

/-- `deleteFixup(x, parent)` where the context of the (possibly nil) focus is `p`. -/
def deleteFixup (p : Path) (n : Tree) : Option Tree :=
  (dfLoopF (p.length + 2) p n).join

/-- `findNode` (lines 225-238) as a zipper: the context and the subtree rooted
at the matching node. -/
def findNode (x : Int) : Tree → Option (Path × Tree)
  | .nil => none
  | .node c l v r =>
    if x = v then some ([], .node c l v r)
    else if x < v then (findNode x l).map (fun s => (s.1 ++ [⟨.left, c, v, r⟩], s.2))
    else (findNode x r).map (fun s => (s.1 ++ [⟨.right, c, v, l⟩], s.2))

/-- `minimum` (lines 291-297) as a zipper on a subtree: the chain of left
descents and the leftmost node. -/
def minSplit : Tree → Path × Tree
  | .nil => ([], .nil)
  | .node c .nil v r => ([], .node c .nil v r)
  | .node c (.node c1 l1 v1 r1) v r =>
    let s := minSplit (.node c1 l1 v1 r1)
    (s.1 ++ [⟨.left, c, v, r⟩], s.2)

/-- `deleteNode` (lines 241-275) on a focused node.  With two children, `y` is
`successor(n) = minimum(n.right)` (lines 278-288, the right child being
non-nil); unlinking `y` and copying `y.value` into `n` is, on the zipper, a
frame whose value is `y`'s (line 269).  The spliced child `x` replaces `y`
(lines 250-266) and `deleteFixup` runs iff `y` was black (lines 272-274). -/
def deleteNode (p : Path) (n : Tree) : Option Tree :=
  match n with
  | .nil => none                                 -- never reached: findNode returns nodes
  | .node nc nl nv nr =>
    if nl = .nil ∨ nr = .nil then
      -- y = n (line 245); x = y.left if non-nil else y.right (lines 250-254)
      let x := if nl ≠ .nil then nl else nr
      if nc = .black then deleteFixup p x else some (plugPath p x)
    else
      match minSplit nr with
      | (sp, .node yc .nil yv yr) =>
        -- y = successor(n); x = y.right; n.value = y.value
        let p2 : Path := sp ++ ⟨.right, nc, yv, nl⟩ :: p
        if yc = .black then deleteFixup p2 yr else some (plugPath p2 yr)
      | _ => none                                -- never reached: minSplit yields a leftmost node

/-- `Delete` (lines 213-222): false and no mutation when absent, else remove
and decrement size. -/
def delete (t : RBTree) (x : Int) : Option (Bool × RBTree) :=
  match findNode x t.root with
  | none => some (false, t)
  | some (p, n) => (deleteNode p n).map (fun r => (true, ⟨r, t.size - 1⟩))

/-! ## The Red-Black invariants (spec §3) as decidable predicates -/

def rootColor : Tree → Color
  | .nil => .black
  | .node c _ _ _ => c

/-- No red node has a red child. -/
def noRedRed : Tree → Bool
  | .nil => true
  | .node c l _ r =>
    (c == .black || (nilOrBlack l && nilOrBlack r)) && noRedRed l && noRedRed r

/-- Number of black nodes on the left spine, from the root to (not including) nil. -/
def bheight : Tree → Nat
  | .nil => 0
  | .node c l _ _ => bheight l + (if c = .black then 1 else 0)

/-- Every path from a node to an absent-child position has the same number of
black nodes. -/
def bhOk : Tree → Bool
  | .nil => true
  | .node _ l _ r => bhOk l && bhOk r && (bheight l == bheight r)

def allTree (pred : Int → Bool) : Tree → Bool
  | .nil => true
  | .node _ l v r => pred v && allTree pred l && allTree pred r

/-- Valid BST ordering under the comparator. -/
def isBST : Tree → Bool
  | .nil => true
  | .node _ l v r =>
    allTree (fun a => decide (a < v)) l && allTree (fun a => decide (v < a)) r &&
      isBST l && isBST r

/-- Number of nodes reachable from the root. -/
def count : Tree → Nat
  | .nil => 0
  | .node _ l _ r => count l + count r + 1

/-- The five Red-Black invariants: black root, no red-red edge, equal black
height on all paths, BST ordering, and size consistency. -/
def Inv (t : RBTree) : Bool :=
  rootColor t.root == .black && noRedRed t.root && bhOk t.root && isBST t.root &&
    t.size == (count t.root : Int)

/-! ## Sequences of public mutating operations -/

inductive Op where
  | insert (x : Int) : Op
  | delete (x : Int) : Op
  | clear : Op
deriving DecidableEq

def applyOp (t : RBTree) : Op → Option RBTree
  | .insert x => RBT.insert t x
  | .delete x => (RBT.delete t x).map (fun s => s.2)
  | .clear => some (RBT.clear t)

/-- Run a sequence of operations from a newly constructed tree; `none` means
some operation dereferenced nil. -/
def runOps (ops : List Op) : Option RBTree :=
  ops.foldlM applyOp new

/-- One step of the reference membership semantics of the operations. -/
def memStep (x : Int) (b : Bool) : Op → Bool
  | .insert y => if y = x then true else b
  | .delete y => if y = x then false else b
  | .clear => false

/-- The membership a sequence of operations should produce: inserted and not
deleted (or cleared) afterwards. -/
def memModel (ops : List Op) (x : Int) : Bool :=
  ops.foldl (memStep x) false

/-! ## Basic structural lemmas -/

theorem inorder_setBlack (t : Tree) : inorder (setBlack t) = inorder t := by
  cases t <;> rfl

theorem rootColor_setBlack (t : Tree) : rootColor (setBlack t) = .black := by
  cases t <;> rfl

theorem setBlack_of_nilOrBlack {t : Tree} (h : nilOrBlack t) : setBlack t = t := by
  cases t with
  | nil => rfl
  | node c l v r =>
    cases c with
    | red => simp [nilOrBlack, isRed] at h
    | black => rfl

theorem nilOrBlack_iff_rootColor {t : Tree} : nilOrBlack t ↔ rootColor t = .black := by
  cases t with
  | nil => simp [nilOrBlack, isRed, rootColor]
  | node c l v r => cases c <;> simp [nilOrBlack, isRed, rootColor]

theorem isRed_iff_rootColor {t : Tree} : isRed t ↔ rootColor t = .red := by
  cases t with
  | nil => simp [isRed, rootColor]
  | node c l v r => cases c <;> simp [isRed, rootColor]

theorem plugPath_nil (t : Tree) : plugPath [] t = t := rfl

theorem plugPath_cons (f : Frame) (p : Path) (t : Tree) :
    plugPath (f :: p) t = plugPath p (plugFrame f t) := rfl

theorem plugPath_append (p q : Path) (t : Tree) :
    plugPath (p ++ q) t = plugPath q (plugPath p t) := by
  simp [plugPath, List.foldl_append]

/-- In-order traversal of a context applied to the traversal of its hole. -/
def frameIn (f : Frame) (acc : List Int) : List Int :=
  match f.d with
  | .left => acc ++ f.v :: inorder f.sib
  | .right => inorder f.sib ++ f.v :: acc

def inorderP (p : Path) (acc : List Int) : List Int :=
  p.foldl (fun a f => frameIn f a) acc

theorem inorderP_nil (acc : List Int) : inorderP [] acc = acc := rfl

theorem inorderP_cons (f : Frame) (p : Path) (acc : List Int) :
    inorderP (f :: p) acc = inorderP p (frameIn f acc) := rfl

theorem inorderP_append (p q : Path) (acc : List Int) :
    inorderP (p ++ q) acc = inorderP q (inorderP p acc) := by
  simp [inorderP, List.foldl_append]

theorem inorder_plugFrame (f : Frame) (t : Tree) :
    inorder (plugFrame f t) = frameIn f (inorder t) := by
  cases f with
  | mk d c v sib => cases d <;> rfl

theorem inorder_plugPath (p : Path) (t : Tree) :
    inorder (plugPath p t) = inorderP p (inorder t) := by
  induction p generalizing t with
  | nil => rfl
  | cons f p ih => rw [plugPath_cons, inorderP_cons, ih, inorder_plugFrame]

theorem count_eq_length_inorder (t : Tree) : count t = (inorder t).length := by
  induction t with
  | nil => rfl
  | node c l v r ihl ihr => simp [count, inorder, ihl, ihr]; omega

/-! ## The inductive characterization of the color invariants -/

/-- `IsRB t h`: `t` satisfies the red-red and black-height invariants, every
path from the root to an absent child containing exactly `h` black nodes. -/
inductive IsRB : Tree → Nat → Prop where
  | nil : IsRB .nil 0
  | red {l r : Tree} {v : Int} {h : Nat} :
      IsRB l h → IsRB r h → rootColor l = .black → rootColor r = .black →
      IsRB (.node .red l v r) h
  | black {l r : Tree} {v : Int} {h : Nat} :
      IsRB l h → IsRB r h → IsRB (.node .black l v r) (h + 1)

theorem IsRB.bheight_eq {t : Tree} {h : Nat} (hrb : IsRB t h) : bheight t = h := by
  induction hrb with
  | nil => rfl
  | red hl hr _ _ ihl ihr => simp [bheight, ihl]
  | black hl hr ihl ihr => simp [bheight, ihl]

theorem IsRB.setBlack_red {t : Tree} {h : Nat} (hrb : IsRB t h)
    (hred : rootColor t = .red) : IsRB (setBlack t) (h + 1) := by
  cases hrb with
  | nil => simp [rootColor] at hred
  | red hl hr cl cr => exact .black hl hr
  | black hl hr => simp [rootColor] at hred

theorem IsRB.setBlack_any {t : Tree} {h : Nat} (hrb : IsRB t h) :
    ∃ h2, IsRB (setBlack t) h2 := by
  cases hcol : rootColor t with
  | red => exact ⟨h + 1, hrb.setBlack_red hcol⟩
  | black =>
    rw [setBlack_of_nilOrBlack (nilOrBlack_iff_rootColor.2 hcol)]
    exact ⟨h, hrb⟩

theorem IsRB.nonnil_of_pos {t : Tree} {h : Nat} (hrb : IsRB t h) (hp : 0 < h) :
    t ≠ .nil := by
  cases hrb with
  | nil => omega
  | red hl hr cl cr => simp
  | black hl hr => simp

/-- Boolean-to-inductive direction of the color-invariant bridge. -/
theorem isRB_of_bool {t : Tree} (h1 : noRedRed t) (h2 : bhOk t) :
    IsRB t (bheight t) := by
  induction t with
  | nil => exact .nil
  | node c l v r ihl ihr =>
    simp only [noRedRed, Bool.and_eq_true, Bool.or_eq_true] at h1
    simp only [bhOk, Bool.and_eq_true, beq_iff_eq] at h2
    have hl := ihl h1.1.2 h2.1.1
    have hr := ihr h1.2 h2.1.2
    have hbeq : bheight l = bheight r := h2.2
    cases c with
    | red =>
      have hcol : nilOrBlack l ∧ nilOrBlack r := by
        rcases h1.1.1 with h | h
        · simp at h
        · simpa using h
      have : IsRB (Tree.node .red l v r) (bheight l) :=
        .red hl (hbeq ▸ hr) (nilOrBlack_iff_rootColor.1 hcol.1)
          (nilOrBlack_iff_rootColor.1 hcol.2)
      simpa [bheight] using this
    | black =>
      have : IsRB (Tree.node .black l v r) (bheight l + 1) := .black hl (hbeq ▸ hr)
      simpa [bheight] using this

/-- Inductive-to-boolean direction of the color-invariant bridge. -/
theorem bool_of_isRB {t : Tree} {h : Nat} (hrb : IsRB t h) :
    noRedRed t ∧ bhOk t := by
  induction hrb with
  | nil => exact ⟨rfl, rfl⟩
  | red hl hr cl cr ihl ihr =>
    refine ⟨?_, ?_⟩
    · simp [noRedRed, ihl.1, ihr.1, nilOrBlack_iff_rootColor.2 cl,
        nilOrBlack_iff_rootColor.2 cr]
    · simp [bhOk, ihl.2, ihr.2, hl.bheight_eq, hr.bheight_eq]
  | black hl hr ihl ihr =>
    refine ⟨?_, ?_⟩
    · simp [noRedRed, ihl.1, ihr.1]
    · simp [bhOk, ihl.2, ihr.2, hl.bheight_eq, hr.bheight_eq]

/-! ## BST ordering and in-order traversal -/

theorem allTree_iff {pred : Int → Bool} {t : Tree} :
    allTree pred t ↔ ∀ x ∈ inorder t, pred x := by
  induction t with
  | nil => simp [allTree, inorder]
  | node c l v r ihl ihr =>
    simp only [allTree, Bool.and_eq_true, inorder, List.mem_append, List.mem_cons]
    constructor
    · rintro ⟨⟨hv, hl⟩, hr⟩ x (hx | hx | hx)
      · exact ihl.1 hl x hx
      · exact hx ▸ hv
      · exact ihr.1 hr x hx
    · intro hall
      exact ⟨⟨hall v (Or.inr (Or.inl rfl)), ihl.2 fun x hx => hall x (Or.inl hx)⟩,
        ihr.2 fun x hx => hall x (Or.inr (Or.inr hx))⟩

theorem isBST_iff_sorted {t : Tree} :
    isBST t ↔ (inorder t).Sorted (· < ·) := by
  induction t with
  | nil => simp [isBST, inorder, List.Sorted]
  | node c l v r ihl ihr =>
    simp only [isBST, Bool.and_eq_true, inorder, List.Sorted]
    rw [List.pairwise_append]
    constructor
    · rintro ⟨⟨⟨hal, har⟩, hbl⟩, hbr⟩
      refine ⟨ihl.1 hbl, ?_, ?_⟩
      · rw [List.pairwise_cons]
        refine ⟨fun y hy => by simpa using allTree_iff.1 har y hy, ihr.1 hbr⟩
      · intro a ha b hb
        have hav : a < v := by simpa using allTree_iff.1 hal a ha
        rcases List.mem_cons.1 hb with hb | hb
        · exact hb ▸ hav
        · have hvb : v < b := by simpa using allTree_iff.1 har b hb
          exact hav.trans hvb
    · rintro ⟨hsl, hsr, hcross⟩
      rw [List.pairwise_cons] at hsr
      refine ⟨⟨⟨?_, ?_⟩, ihl.2 hsl⟩, ihr.2 hsr.2⟩
      · exact allTree_iff.2 fun x hx => by
          simpa using hcross x hx v (List.mem_cons_self v _)
      · exact allTree_iff.2 fun x hx => by simpa using hsr.1 x hx

/-- Completeness and soundness of `Search` on a BST. -/
theorem search_iff_mem {t : Tree} (hbst : isBST t) {x : Int} :
    search x t ↔ x ∈ inorder t := by
  induction t with
  | nil => simp [search, inorder]
  | node c l v r ihl ihr =>
    simp only [isBST, Bool.and_eq_true] at hbst
    obtain ⟨⟨⟨hal, har⟩, hbl⟩, hbr⟩ := hbst
    simp only [search, inorder, List.mem_append, List.mem_cons]
    by_cases hxv : x = v
    · simp [hxv]
    · simp only [hxv, if_false]
      by_cases hlt : x < v
      · rw [if_pos hlt, ihl hbl]
        constructor
        · exact fun h => Or.inl h
        · rintro (h | h | h)
          · exact h
          · exact h.elim
          · have := allTree_iff.1 har x h
            simp at this; omega
      · rw [if_neg hlt, ihr hbr]
        constructor
        · exact fun h => Or.inr (Or.inr h)
        · rintro (h | h | h)
          · have := allTree_iff.1 hal x h
            simp at this; omega
          · exact h.elim
          · exact h

/-! ## Validity of a context (the chain of parents)

A context taken from a valid tree satisfies: each sibling subtree is a valid
red-black subtree of the black height its position requires, a red frame has a
black sibling and a black parent frame, and the outermost frame (the root) is
black. -/

/-- Black-height contributed by passing one frame. -/
def frameInc (f : Frame) : Nat := if f.c = .black then 1 else 0

def pathInc (p : Path) : Nat := (p.map frameInc).sum

/-- Each sibling on the path is valid for the black height its position
requires (`h` at the hole), and a red frame has a black-rooted sibling. -/
def sibOk : Path → Nat → Prop
  | [], _ => True
  | f :: rest, h =>
    IsRB f.sib h ∧ (f.c = .red → rootColor f.sib = .black) ∧ sibOk rest (h + frameInc f)

/-- No red-red edge between a frame and its parent frame. -/
def redParentOk (f g : Frame) : Prop := f.c = .red → g.c = .black

/-- The outermost frame, if any, is black (the root of a valid tree is black). -/
def lastBlack : Path → Prop
  | [] => True
  | [f] => f.c = .black
  | _ :: rest => lastBlack rest

theorem pathInc_nil : pathInc [] = 0 := rfl

theorem pathInc_cons (f : Frame) (p : Path) :
    pathInc (f :: p) = frameInc f + pathInc p := by
  simp [pathInc]

theorem pathInc_append (p q : Path) : pathInc (p ++ q) = pathInc p + pathInc q := by
  simp [pathInc]

theorem sibOk_cons {f : Frame} {rest : Path} {h : Nat} :
    sibOk (f :: rest) h ↔
      IsRB f.sib h ∧ (f.c = .red → rootColor f.sib = .black) ∧ sibOk rest (h + frameInc f) :=
  Iff.rfl

theorem sibOk_append {p q : Path} {h : Nat} :
    sibOk (p ++ q) h ↔ sibOk p h ∧ sibOk q (h + pathInc p) := by
  induction p generalizing h with
  | nil => simp [sibOk, pathInc_nil]
  | cons f p ih =>
    rw [List.cons_append, sibOk_cons, sibOk_cons]
    constructor
    · rintro ⟨h1, h2, h3⟩
      rw [ih] at h3
      refine ⟨⟨h1, h2, h3.1⟩, ?_⟩
      rw [pathInc_cons, ← Nat.add_assoc]
      exact h3.2
    · rintro ⟨⟨h1, h2, h3⟩, h4⟩
      rw [ih]
      refine ⟨h1, h2, h3, ?_⟩
      rw [pathInc_cons, ← Nat.add_assoc] at h4
      exact h4

theorem lastBlack_cons_of_ne {f : Frame} {p : Path} (hp : p ≠ []) :
    lastBlack (f :: p) = lastBlack p := by
  cases p with
  | nil => exact absurd rfl hp
  | cons g q => rfl

theorem lastBlack_cons {f : Frame} {p : Path} (hl : lastBlack (f :: p)) (hp : p ≠ []) :
    lastBlack p := by
  rwa [lastBlack_cons_of_ne hp] at hl

theorem lastBlack_iff {p : Path} :
    lastBlack p ↔ ∀ f, p.getLast? = some f → f.c = .black := by
  induction p with
  | nil => simp [lastBlack]
  | cons f p ih =>
    cases p with
    | nil => simp [lastBlack]
    | cons g q =>
      rw [lastBlack_cons_of_ne (by simp), ih]
      constructor
      · intro hall f2 hf2
        exact hall f2 (by simpa using hf2)
      · intro hall f2 hf2
        exact hall f2 (by simpa using hf2)

theorem lastBlack_append_singleton {p : Path} {f : Frame} (hf : f.c = .black) :
    lastBlack (p ++ [f]) := by
  rw [lastBlack_iff]
  intro g hg
  simp [List.getLast?_append] at hg
  exact hg ▸ hf

theorem rootColor_plugFrame (f : Frame) (t : Tree) : rootColor (plugFrame f t) = f.c := by
  cases f with
  | mk d c v sib => cases d <;> rfl

theorem rootColor_plugPath {p : Path} {t : Tree} (hl : lastBlack p)
    (h0 : p = [] → rootColor t = .black) : rootColor (plugPath p t) = .black := by
  induction p generalizing t with
  | nil => exact h0 rfl
  | cons f rest ih =>
    rw [plugPath_cons]
    cases rest with
    | nil =>
      rw [plugPath_nil, rootColor_plugFrame]
      exact hl
    | cons g q =>
      exact ih (lastBlack_cons hl (by simp)) (by simp)

/-- Plugging a valid subtree of the right black height into a valid context
gives a valid tree (compatibility: if the innermost frame is red, the subtree's
root must be black). -/
theorem plug_isRB {p : Path} {h : Nat} {t : Tree} (hsib : sibOk p h)
    (hch : p.Chain' redParentOk) (ht : IsRB t h)
    (hcompat : ∀ g, p.head? = some g → g.c = .red → rootColor t = .black) :
    IsRB (plugPath p t) (h + pathInc p) := by
  induction p generalizing t h with
  | nil => simpa [pathInc_nil] using ht
  | cons f rest ih =>
    obtain ⟨hfs, hfred, hrest⟩ := hsib
    rw [List.chain'_cons'] at hch
    obtain ⟨hhead, hch2⟩ := hch
    rw [plugPath_cons, pathInc_cons]
    have hplug : IsRB (plugFrame f t) (h + frameInc f) := by
      cases hcf : f.c with
      | red =>
        have hblack1 : rootColor t = .black := hcompat f rfl hcf
        have hblack2 : rootColor f.sib = .black := hfred hcf
        cases f with
        | mk d c v sib =>
          simp only at hcf
          subst hcf
          cases d with
          | left =>
            simpa [plugFrame, frameInc] using IsRB.red ht hfs hblack1 hblack2
          | right =>
            simpa [plugFrame, frameInc] using IsRB.red hfs ht hblack2 hblack1
      | black =>
        cases f with
        | mk d c v sib =>
          simp only at hcf
          subst hcf
          cases d with
          | left =>
            simpa [plugFrame, frameInc] using IsRB.black ht hfs
          | right =>
            simpa [plugFrame, frameInc] using IsRB.black hfs ht
    have hcompat2 : ∀ g, rest.head? = some g → g.c = .red →
        rootColor (plugFrame f t) = .black := by
      intro g hg hgc
      rw [rootColor_plugFrame]
      cases hcf : f.c with
      | black => rfl
      | red =>
        have := hhead g hg hcf
        rw [this] at hgc
        cases hgc
    have := ih hrest hch2 hplug hcompat2
    rwa [Nat.add_assoc] at this


/-! ## The descent of Insert -/

theorem IsRB.node_elim {c : Color} {l r : Tree} {v : Int} {h : Nat}
    (hrb : IsRB (.node c l v r) h) :
    ∃ h2, IsRB l h2 ∧ IsRB r h2 ∧ h = h2 + (if c = .black then 1 else 0) ∧
      (c = .red → rootColor l = .black ∧ rootColor r = .black) := by
  cases hrb with
  | red hl hr cl cr => exact ⟨_, hl, hr, by simp, fun _ => ⟨cl, cr⟩⟩
  | black hl hr => exact ⟨_, hl, hr, by simp, by intro hc; cases hc⟩

theorem isBST_node {c : Color} {l r : Tree} {v : Int} (hbst : isBST (.node c l v r)) :
    allTree (fun a => decide (a < v)) l ∧ allTree (fun a => decide (v < a)) r ∧
      isBST l ∧ isBST r := by
  simpa [isBST, Bool.and_eq_true, and_assoc] using hbst

/-- `frameIn` does not depend on the color of the frame. -/
theorem frameIn_mk (d : Dir) (c : Color) (v : Int) (s : Tree) (acc : List Int) :
    frameIn ⟨d, c, v, s⟩ acc =
      match d with
      | .left => acc ++ v :: inorder s
      | .right => inorder s ++ v :: acc := by
  cases d <;> rfl

/-- Everything the descent of `Insert` guarantees about the context of the
attachment position, in a tree with the color and ordering invariants. -/
theorem insertPos_ok {t : Tree} {h : Nat} {x : Int} {p : Path} (hrb : IsRB t h)
    (hbst : isBST t) (hfind : insertPos x t = some p) :
    sibOk p 0 ∧ p.Chain' redParentOk ∧
    (∀ f, p.getLast? = some f → f.c = rootColor t) ∧
    pathInc p = h ∧ x ∉ inorder t ∧
    List.Perm (inorderP p [x]) (x :: inorder t) ∧ (inorderP p [x]).Sorted (· < ·) := by
  induction t generalizing h p with
  | nil =>
    cases hrb
    simp only [insertPos, Option.some_inj] at hfind
    subst hfind
    refine ⟨trivial, List.chain'_nil, by simp, rfl, by simp [inorder], ?_, ?_⟩
    · simp [inorderP, inorder]
    · simp [inorderP]
  | node c l v r ihl ihr =>
    obtain ⟨h2, hl, hr, hh, hcol⟩ := hrb.node_elim
    obtain ⟨hal, har, hbl, hbr⟩ := isBST_node hbst
    simp only [insertPos] at hfind
    by_cases hxv : x = v
    · simp [hxv] at hfind
    · rw [if_neg hxv] at hfind
      by_cases hlt : x < v
      · rw [if_pos hlt, Option.map_eq_some'] at hfind
        obtain ⟨pl, hpl, hp⟩ := hfind
        subst hp
        obtain ⟨ha, hb, hc, hd, he, hf, hg⟩ := ihl hl hbl hpl
        set f : Frame := ⟨.left, c, v, r⟩ with hfdef
        refine ⟨?_, ?_, ?_, ?_, ?_, ?_, ?_⟩
        · rw [sibOk_append]
          refine ⟨ha, ?_⟩
          rw [sibOk_cons]
          refine ⟨by rw [Nat.zero_add, hd]; exact hr, ?_, trivial⟩
          intro hcf
          exact (hcol hcf).2
        · rw [List.chain'_append]
          refine ⟨hb, List.chain'_singleton f, ?_⟩
          intro a hga b hgb
          simp only [List.head?_cons, Option.mem_def, Option.some_inj] at hgb
          subst hgb
          intro hared
          have hrl : rootColor l = .red := by rw [← hc a hga]; exact hared
          show c = .black
          cases hcc : c with
          | black => rfl
          | red =>
            have := (hcol hcc).1
            rw [this] at hrl
            cases hrl
        · intro f2 hf2
          rw [List.getLast?_concat] at hf2
          cases hf2
          rfl
        · rw [pathInc_append, hd, pathInc_cons, pathInc_nil]
          simp [frameInc, hh, Nat.add_comm]
        · simp only [inorder, List.mem_append, List.mem_cons]
          rintro (hm | hm | hm)
          · exact he hm
          · exact hxv hm
          · have := allTree_iff.1 har x hm
            simp at this
            omega
        · rw [inorderP_append, inorderP_cons, inorderP_nil]
          simp only [inorder]
          show List.Perm (inorderP pl [x] ++ v :: inorder r) (x :: (inorder l ++ v :: inorder r))
          simpa using hf.append_right (v :: inorder r)
        · rw [inorderP_append, inorderP_cons, inorderP_nil]
          show List.Sorted (· < ·) (inorderP pl [x] ++ v :: inorder r)
          rw [List.Sorted, List.pairwise_append]
          refine ⟨hg, ?_, ?_⟩
          · rw [List.pairwise_cons]
            refine ⟨fun y hy => by simpa using allTree_iff.1 har y hy,
              isBST_iff_sorted.1 hbr⟩
          · intro a ha2 b hb2
            have halt : a < v := by
              rcases List.mem_cons.1 (hf.mem_iff.1 ha2) with h | h
              · omega
              · simpa using allTree_iff.1 hal a h
            rcases List.mem_cons.1 hb2 with h | h
            · omega
            · have : v < b := by simpa using allTree_iff.1 har b h
              omega
      · rw [if_neg hlt, Option.map_eq_some'] at hfind
        obtain ⟨pr, hpr, hp⟩ := hfind
        subst hp
        obtain ⟨ha, hb, hc, hd, he, hf, hg⟩ := ihr hr hbr hpr
        have hvx : v < x := by omega
        set f : Frame := ⟨.right, c, v, l⟩ with hfdef
        refine ⟨?_, ?_, ?_, ?_, ?_, ?_, ?_⟩
        · rw [sibOk_append]
          refine ⟨ha, ?_⟩
          rw [sibOk_cons]
          refine ⟨by rw [Nat.zero_add, hd]; exact hl, ?_, trivial⟩
          intro hcf
          exact (hcol hcf).1
        · rw [List.chain'_append]
          refine ⟨hb, List.chain'_singleton f, ?_⟩
          intro a hga b hgb
          simp only [List.head?_cons, Option.mem_def, Option.some_inj] at hgb
          subst hgb
          intro hared
          have hrl : rootColor r = .red := by rw [← hc a hga]; exact hared
          show c = .black
          cases hcc : c with
          | black => rfl
          | red =>
            have := (hcol hcc).2
            rw [this] at hrl
            cases hrl
        · intro f2 hf2
          rw [List.getLast?_concat] at hf2
          cases hf2
          rfl
        · rw [pathInc_append, hd, pathInc_cons, pathInc_nil]
          simp [frameInc, hh, Nat.add_comm]
        · simp only [inorder, List.mem_append, List.mem_cons]
          rintro (hm | hm | hm)
          · have := allTree_iff.1 hal x hm
            simp at this
            omega
          · exact hxv hm
          · exact he hm
        · rw [inorderP_append, inorderP_cons, inorderP_nil]
          simp only [inorder]
          show List.Perm (inorder l ++ v :: inorderP pr [x]) (x :: (inorder l ++ v :: inorder r))
          refine (List.Perm.append_left (inorder l) (hf.cons v)).trans ?_
          have h3 : inorder l ++ v :: x :: inorder r =
              (inorder l ++ [v]) ++ x :: inorder r := by simp
          have h4 : x :: (inorder l ++ v :: inorder r) =
              x :: ((inorder l ++ [v]) ++ inorder r) := by simp
          rw [h3, h4]
          exact List.perm_middle
        · rw [inorderP_append, inorderP_cons, inorderP_nil]
          show List.Sorted (· < ·) (inorder l ++ v :: inorderP pr [x])
          rw [List.Sorted, List.pairwise_append]
          refine ⟨isBST_iff_sorted.1 hbl, ?_, ?_⟩
          · rw [List.pairwise_cons]
            refine ⟨?_, hg⟩
            intro y hy
            rcases List.mem_cons.1 (hf.mem_iff.1 hy) with h | h
            · omega
            · simpa using allTree_iff.1 har y h
          · intro a ha2 b hb2
            have halt : a < v := by simpa using allTree_iff.1 hal a ha2
            rcases List.mem_cons.1 hb2 with h | h
            · omega
            · rcases List.mem_cons.1 (hf.mem_iff.1 h) with h | h
              · omega
              · have : v < b := by simpa using allTree_iff.1 har b h
                omega

/-- The only way the descent fails is an equal value already in the tree. -/
theorem insertPos_none {t : Tree} {x : Int} (hfind : insertPos x t = none) :
    x ∈ inorder t := by
  induction t with
  | nil => simp [insertPos] at hfind
  | node c l v r ihl ihr =>
    simp only [insertPos] at hfind
    by_cases hxv : x = v
    · simp [inorder, hxv]
    · rw [if_neg hxv] at hfind
      by_cases hlt : x < v
      · rw [if_pos hlt] at hfind
        simp only [Option.map_eq_none'] at hfind
        simp only [inorder, List.mem_append]
        exact Or.inl (ihl hfind)
      · rw [if_neg hlt] at hfind
        simp only [Option.map_eq_none'] at hfind
        simp only [inorder, List.mem_append, List.mem_cons]
        exact Or.inr (Or.inr (ihr hfind))

/-! ## Correctness of the insertFixup loop -/

theorem insLoopF_exit {fuel : Nat} {p : Path} {n : Tree} {p2 : Path} {n2 : Tree}
    (hfuel : 0 < fuel) (hstep : insStep p n = some (.inl (p2, n2))) :
    insLoopF fuel p n = some (some (setBlack (plugPath p2 n2))) := by
  cases fuel with
  | zero => omega
  | succ fuel => simp [insLoopF, hstep]

theorem insLoopF_cont {fuel : Nat} {p : Path} {n : Tree} {p2 : Path} {n2 : Tree}
    (hstep : insStep p n = some (.inr (p2, n2))) :
    insLoopF (fuel + 1) p n = insLoopF fuel p2 n2 := by
  simp [insLoopF, hstep]

theorem rootColor_of_not_isRed {t : Tree} (h : ¬ isRed t = true) :
    rootColor t = .black := by
  apply nilOrBlack_iff_rootColor.1
  simp [nilOrBlack, Bool.not_eq_true] at h ⊢
  exact h

/-- Packaging of a loop exit: the exit state plugs to a valid tree whose root
is then painted black. -/
theorem insExitPackage {fuel : Nat} {p p2 : Path} {n n2 : Tree} {h2 : Nat}
    (hfuel : 0 < fuel) (hstep : insStep p n = some (.inl (p2, n2)))
    (hsib : sibOk p2 h2) (hch : p2.Chain' redParentOk) (hrb : IsRB n2 h2)
    (hcompat : ∀ g, p2.head? = some g → g.c = .red → rootColor n2 = .black)
    (hio : inorderP p2 (inorder n2) = inorderP p (inorder n)) :
    ∃ t2, insLoopF fuel p n = some (some t2) ∧ (∃ hh, IsRB t2 hh) ∧
      rootColor t2 = .black ∧ inorder t2 = inorderP p (inorder n) := by
  refine ⟨setBlack (plugPath p2 n2), insLoopF_exit hfuel hstep,
    (plug_isRB hsib hch hrb hcompat).setBlack_any, rootColor_setBlack _, ?_⟩
  rw [inorder_setBlack, inorder_plugPath, hio]

/-- Main invariant of the `insertFixup` loop: the focus is a valid red-rooted
subtree and the context is valid; the loop ends with a valid black-rooted tree
with the same in-order traversal and never dereferences nil. -/
theorem insLoop_ok (fuel : Nat) :
    ∀ (p : Path) (n : Tree) (h : Nat),
    p.length + 1 ≤ fuel → IsRB n h → rootColor n = .red →
    sibOk p h → p.Chain' redParentOk → lastBlack p →
    ∃ t2, insLoopF fuel p n = some (some t2) ∧ (∃ h2, IsRB t2 h2) ∧
      rootColor t2 = .black ∧ inorder t2 = inorderP p (inorder n) := by
  induction fuel with
  | zero =>
    intro p n h hfuel hrb hred hsib hch hlast
    omega
  | succ fuel ih =>
    intro p n h hfuel hrb hred hsib hch hlast
    cases p with
    | nil =>
      exact insExitPackage (Nat.succ_pos _) rfl trivial List.chain'_nil hrb
        (by simp) rfl
    | cons f rest =>
      obtain ⟨fd, fc, fv, fs⟩ := f
      obtain ⟨hfs, hfred, hsib2⟩ := sibOk_cons.1 hsib
      rw [List.chain'_cons'] at hch
      obtain ⟨hfg, hch2⟩ := hch
      cases fc with
      | black =>
        refine insExitPackage (Nat.succ_pos _) (by simp [insStep]) hsib
          (List.chain'_cons'.2 ⟨hfg, hch2⟩) hrb ?_ rfl
        intro g hg hgc
        simp only [List.head?_cons, Option.some_inj] at hg
        subst hg
        cases hgc
      | red =>
        have hfsb : rootColor fs = .black := hfred rfl
        have hfinc : frameInc ⟨fd, .red, fv, fs⟩ = 0 := rfl
        rw [hfinc, Nat.add_zero] at hsib2
        cases rest with
        | nil => simp [lastBlack] at hlast
        | cons g rest2 =>
          obtain ⟨gd, gc, gv, gs⟩ := g
          obtain ⟨hgs, hgred, hsib3⟩ := sibOk_cons.1 hsib2
          have hgc : gc = .black := hfg ⟨gd, gc, gv, gs⟩ (by simp) rfl
          subst hgc
          have hginc : frameInc ⟨gd, .black, gv, gs⟩ = 1 := rfl
          rw [hginc] at hsib3
          rw [List.chain'_cons'] at hch2
          obtain ⟨hgh, hch3⟩ := hch2
          have hlast2 : lastBlack (⟨gd, Color.black, gv, gs⟩ :: rest2) :=
            lastBlack_cons hlast (by simp)
          cases gd with
          | left =>
            by_cases hunc : isRed gs = true
            · -- uncle red: recolor and move the focus to the grandparent
              have hgsr : rootColor gs = .red := isRed_iff_rootColor.1 hunc
              have hn2 : IsRB (Tree.node .red
                  (plugFrame ⟨fd, .black, fv, fs⟩ n) gv (setBlack gs)) (h + 1) := by
                refine IsRB.red ?_ (hgs.setBlack_red hgsr) ?_ (rootColor_setBlack _)
                · cases fd with
                  | left => exact IsRB.black hrb hfs
                  | right => exact IsRB.black hfs hrb
                · cases fd <;> rfl
              have hio2 : inorder (Tree.node .red
                  (plugFrame ⟨fd, .black, fv, fs⟩ n) gv (setBlack gs)) =
                  frameIn ⟨Dir.left, .black, gv, gs⟩
                    (frameIn ⟨fd, .red, fv, fs⟩ (inorder n)) := by
                cases fd <;> simp [inorder, plugFrame, frameIn, inorder_setBlack]
              cases rest2 with
              | nil =>
                refine insExitPackage (Nat.succ_pos _) ?_
                  (show sibOk ([] : Path) (h + 1) from trivial) List.chain'_nil hn2
                  (by simp) ?_
                · simp [insStep, hunc]
                · rw [inorderP_nil, hio2]
                  rfl
              | cons g2 rest3 =>
                have hstep : insStep (⟨fd, Color.red, fv, fs⟩ ::
                    ⟨Dir.left, Color.black, gv, gs⟩ :: g2 :: rest3) n =
                    some (.inr (g2 :: rest3, Tree.node .red
                      (plugFrame ⟨fd, .black, fv, fs⟩ n) gv (setBlack gs))) := by
                  simp [insStep, hunc]
                rw [insLoopF_cont hstep]
                have hlen : (g2 :: rest3).length + 1 ≤ fuel := by
                  simp only [List.length_cons] at hfuel ⊢
                  omega
                obtain ⟨t2, ht2, hrb2, hcol2, hio3⟩ :=
                  ih (g2 :: rest3) _ (h + 1) hlen hn2 rfl hsib3 hch3
                    (lastBlack_cons hlast2 (by simp))
                refine ⟨t2, ht2, hrb2, hcol2, ?_⟩
                rw [hio3, hio2]
                rfl
            · -- uncle black, parent left of grandparent
              have hgsb : rootColor gs = .black := rootColor_of_not_isRed hunc
              cases fd with
              | left =>
                -- LL: single right rotation at the grandparent position
                have hstep : insStep (⟨Dir.left, Color.red, fv, fs⟩ ::
                    ⟨Dir.left, Color.black, gv, gs⟩ :: rest2) n =
                    some (.inr (⟨Dir.left, Color.black, fv,
                      Tree.node .red fs gv gs⟩ :: rest2, n)) := by
                  simp [insStep, hunc]
                rw [insLoopF_cont hstep]
                have hsibnew : IsRB (Tree.node .red fs gv gs) h :=
                  IsRB.red hfs hgs hfsb hgsb
                have hlen : (⟨Dir.left, Color.black, fv,
                    Tree.node .red fs gv gs⟩ :: rest2).length + 1 ≤ fuel := by
                  simp only [List.length_cons] at hfuel ⊢
                  omega
                obtain ⟨t2, ht2, hrb2, hcol2, hio3⟩ :=
                  ih _ n h hlen hrb hred
                    (sibOk_cons.2 ⟨hsibnew, (by intro habs; cases habs), hsib3⟩)
                    (List.chain'_cons'.2 ⟨(by intro b hb habs; cases habs), hch3⟩)
                    (by
                      cases rest2 with
                      | nil => rfl
                      | cons g2 rest3 =>
                        rw [lastBlack_cons_of_ne (by simp)]
                        exact lastBlack_cons hlast2 (by simp))
                refine ⟨t2, ht2, hrb2, hcol2, ?_⟩
                rw [hio3]
                show inorderP rest2 _ = inorderP rest2 _
                congr 1
                simp [frameIn, inorder]
              | right =>
                -- LR: the focus moves to the old parent after rotateLeft
                cases n with
                | nil => simp [rootColor] at hred
                | node nc a xv b =>
                  have hnc : nc = .red := by simpa [rootColor] using hred
                  subst hnc
                  cases hrb with
                  | red ha hb ca cb =>
                    have hstep : insStep (⟨Dir.right, Color.red, fv, fs⟩ ::
                        ⟨Dir.left, Color.black, gv, gs⟩ :: rest2)
                        (Tree.node .red a xv b) =
                        some (.inr (⟨Dir.left, Color.black, xv,
                          Tree.node .red b gv gs⟩ :: rest2,
                          Tree.node Color.red fs fv a)) := by
                      simp [insStep, hunc]
                    rw [insLoopF_cont hstep]
                    have hsibnew : IsRB (Tree.node .red b gv gs) h :=
                      IsRB.red hb hgs cb hgsb
                    have hn2 : IsRB (Tree.node Color.red fs fv a) h :=
                      IsRB.red hfs ha hfsb ca
                    have hlen : (⟨Dir.left, Color.black, xv,
                        Tree.node .red b gv gs⟩ :: rest2).length + 1 ≤ fuel := by
                      simp only [List.length_cons] at hfuel ⊢
                      omega
                    obtain ⟨t2, ht2, hrb2, hcol2, hio3⟩ :=
                      ih _ _ h hlen hn2 rfl
                        (sibOk_cons.2 ⟨hsibnew, (by intro habs; cases habs), hsib3⟩)
                        (List.chain'_cons'.2 ⟨(by intro b2 hb2 habs; cases habs), hch3⟩)
                        (by
                          cases rest2 with
                          | nil => rfl
                          | cons g2 rest3 =>
                            rw [lastBlack_cons_of_ne (by simp)]
                            exact lastBlack_cons hlast2 (by simp))
                    refine ⟨t2, ht2, hrb2, hcol2, ?_⟩
                    rw [hio3]
                    show inorderP rest2 _ = inorderP rest2 _
                    congr 1
                    simp [frameIn, inorder]
          | right =>
            by_cases hunc : isRed gs = true
            · -- uncle red (mirror)
              have hgsr : rootColor gs = .red := isRed_iff_rootColor.1 hunc
              have hn2 : IsRB (Tree.node .red (setBlack gs)
                  gv (plugFrame ⟨fd, .black, fv, fs⟩ n)) (h + 1) := by
                refine IsRB.red (hgs.setBlack_red hgsr) ?_ (rootColor_setBlack _) ?_
                · cases fd with
                  | left => exact IsRB.black hrb hfs
                  | right => exact IsRB.black hfs hrb
                · cases fd <;> rfl
              have hio2 : inorder (Tree.node .red (setBlack gs)
                  gv (plugFrame ⟨fd, .black, fv, fs⟩ n)) =
                  frameIn ⟨Dir.right, .black, gv, gs⟩
                    (frameIn ⟨fd, .red, fv, fs⟩ (inorder n)) := by
                cases fd <;> simp [inorder, plugFrame, frameIn, inorder_setBlack]
              cases rest2 with
              | nil =>
                refine insExitPackage (Nat.succ_pos _) ?_
                  (show sibOk ([] : Path) (h + 1) from trivial) List.chain'_nil hn2
                  (by simp) ?_
                · simp [insStep, hunc]
                · rw [inorderP_nil, hio2]
                  rfl
              | cons g2 rest3 =>
                have hstep : insStep (⟨fd, Color.red, fv, fs⟩ ::
                    ⟨Dir.right, Color.black, gv, gs⟩ :: g2 :: rest3) n =
                    some (.inr (g2 :: rest3, Tree.node .red (setBlack gs)
                      gv (plugFrame ⟨fd, .black, fv, fs⟩ n))) := by
                  simp [insStep, hunc]
                rw [insLoopF_cont hstep]
                have hlen : (g2 :: rest3).length + 1 ≤ fuel := by
                  simp only [List.length_cons] at hfuel ⊢
                  omega
                obtain ⟨t2, ht2, hrb2, hcol2, hio3⟩ :=
                  ih (g2 :: rest3) _ (h + 1) hlen hn2 rfl hsib3 hch3
                    (lastBlack_cons hlast2 (by simp))
                refine ⟨t2, ht2, hrb2, hcol2, ?_⟩
                rw [hio3, hio2]
                rfl
            · have hgsb : rootColor gs = .black := rootColor_of_not_isRed hunc
              cases fd with
              | right =>
                -- RR (mirror of LL)
                have hstep : insStep (⟨Dir.right, Color.red, fv, fs⟩ ::
                    ⟨Dir.right, Color.black, gv, gs⟩ :: rest2) n =
                    some (.inr (⟨Dir.right, Color.black, fv,
                      Tree.node .red gs gv fs⟩ :: rest2, n)) := by
                  simp [insStep, hunc]
                rw [insLoopF_cont hstep]
                have hsibnew : IsRB (Tree.node .red gs gv fs) h :=
                  IsRB.red hgs hfs hgsb hfsb
                have hlen : (⟨Dir.right, Color.black, fv,
                    Tree.node .red gs gv fs⟩ :: rest2).length + 1 ≤ fuel := by
                  simp only [List.length_cons] at hfuel ⊢
                  omega
                obtain ⟨t2, ht2, hrb2, hcol2, hio3⟩ :=
                  ih _ n h hlen hrb hred
                    (sibOk_cons.2 ⟨hsibnew, (by intro habs; cases habs), hsib3⟩)
                    (List.chain'_cons'.2 ⟨(by intro b hb habs; cases habs), hch3⟩)
                    (by
                      cases rest2 with
                      | nil => rfl
                      | cons g2 rest3 =>
                        rw [lastBlack_cons_of_ne (by simp)]
                        exact lastBlack_cons hlast2 (by simp))
                refine ⟨t2, ht2, hrb2, hcol2, ?_⟩
                rw [hio3]
                show inorderP rest2 _ = inorderP rest2 _
                congr 1
                simp [frameIn, inorder]
              | left =>
                -- RL (mirror of LR)
                cases n with
                | nil => simp [rootColor] at hred
                | node nc a xv b =>
                  have hnc : nc = .red := by simpa [rootColor] using hred
                  subst hnc
                  cases hrb with
                  | red ha hb ca cb =>
                    have hstep : insStep (⟨Dir.left, Color.red, fv, fs⟩ ::
                        ⟨Dir.right, Color.black, gv, gs⟩ :: rest2)
                        (Tree.node .red a xv b) =
                        some (.inr (⟨Dir.right, Color.black, xv,
                          Tree.node .red gs gv a⟩ :: rest2,
                          Tree.node Color.red b fv fs)) := by
                      simp [insStep, hunc]
                    rw [insLoopF_cont hstep]
                    have hsibnew : IsRB (Tree.node .red gs gv a) h :=
                      IsRB.red hgs ha hgsb ca
                    have hn2 : IsRB (Tree.node Color.red b fv fs) h :=
                      IsRB.red hb hfs cb hfsb
                    have hlen : (⟨Dir.right, Color.black, xv,
                        Tree.node .red gs gv a⟩ :: rest2).length + 1 ≤ fuel := by
                      simp only [List.length_cons] at hfuel ⊢
                      omega
                    obtain ⟨t2, ht2, hrb2, hcol2, hio3⟩ :=
                      ih _ _ h hlen hn2 rfl
                        (sibOk_cons.2 ⟨hsibnew, (by intro habs; cases habs), hsib3⟩)
                        (List.chain'_cons'.2 ⟨(by intro b2 hb2 habs; cases habs), hch3⟩)
                        (by
                          cases rest2 with
                          | nil => rfl
                          | cons g2 rest3 =>
                            rw [lastBlack_cons_of_ne (by simp)]
                            exact lastBlack_cons hlast2 (by simp))
                    refine ⟨t2, ht2, hrb2, hcol2, ?_⟩
                    rw [hio3]
                    show inorderP rest2 _ = inorderP rest2 _
                    congr 1
                    simp [frameIn, inorder]


/-! ## Correctness of Insert -/

theorem insertFixup_ok {p : Path} {n : Tree} {h : Nat} (hrb : IsRB n h)
    (hred : rootColor n = .red) (hsib : sibOk p h) (hch : p.Chain' redParentOk)
    (hlast : lastBlack p) :
    ∃ t2, insertFixup p n = some t2 ∧ (∃ h2, IsRB t2 h2) ∧
      rootColor t2 = .black ∧ inorder t2 = inorderP p (inorder n) := by
  obtain ⟨t2, ht2, hx⟩ :=
    insLoop_ok (p.length + 2) p n h (by omega) hrb hred hsib hch hlast
  exact ⟨t2, by simp [insertFixup, ht2], hx⟩

theorem Inv_elim {t : RBTree} (hinv : Inv t) :
    rootColor t.root = .black ∧ IsRB t.root (bheight t.root) ∧ isBST t.root ∧
      t.size = (count t.root : Int) := by
  simp only [Inv, Bool.and_eq_true, beq_iff_eq] at hinv
  exact ⟨hinv.1.1.1.1, isRB_of_bool hinv.1.1.1.2 hinv.1.1.2, hinv.1.2, hinv.2⟩

theorem Inv_intro {t : RBTree} {h : Nat} (h1 : rootColor t.root = .black)
    (h2 : IsRB t.root h) (h3 : (inorder t.root).Sorted (· < ·))
    (h4 : t.size = ((inorder t.root).length : Int)) : Inv t := by
  simp only [Inv, Bool.and_eq_true, beq_iff_eq]
  obtain ⟨hn, hb⟩ := bool_of_isRB h2
  refine ⟨⟨⟨⟨h1, hn⟩, hb⟩, isBST_iff_sorted.2 h3⟩, ?_⟩
  rw [h4, count_eq_length_inorder]

theorem Inv_sorted {t : RBTree} (hinv : Inv t) : (inorder t.root).Sorted (· < ·) :=
  isBST_iff_sorted.1 (Inv_elim hinv).2.2.1

theorem Inv_size {t : RBTree} (hinv : Inv t) :
    t.size = ((inorder t.root).length : Int) := by
  rw [(Inv_elim hinv).2.2.2, count_eq_length_inorder]

/-- Functional correctness and invariant preservation of `Insert`: on a valid
tree it never dereferences nil, keeps the invariants, is the identity on a
present value, and otherwise adds exactly the new value to the traversal and
one to the size. -/
theorem insert_ok {t : RBTree} {x : Int} (hinv : Inv t) :
    ∃ t2, insert t x = some t2 ∧ Inv t2 ∧
      (x ∈ inorder t.root → t2 = t) ∧
      (x ∉ inorder t.root →
        List.Perm (inorder t2.root) (x :: inorder t.root) ∧ t2.size = t.size + 1) := by
  obtain ⟨hroot, hrb, hbst, hsize⟩ := Inv_elim hinv
  by_cases hmem : x ∈ inorder t.root
  · have hs : search x t.root = true := (search_iff_mem hbst).2 hmem
    refine ⟨t, ?_, hinv, fun _ => rfl, fun hnm => absurd hmem hnm⟩
    simp [insert, hs]
  · have hs : search x t.root = false := by
      rw [← Bool.not_eq_true]
      intro hcon
      exact hmem ((search_iff_mem hbst).1 hcon)
    cases hpos : insertPos x t.root with
    | none => exact absurd (insertPos_none hpos) hmem
    | some p =>
      obtain ⟨ha, hb, hc, hd, he, hf, hg⟩ := insertPos_ok hrb hbst hpos
      have hnew : IsRB (Tree.node .red .nil x .nil) 0 := IsRB.red .nil .nil rfl rfl
      have hlast : lastBlack p := by
        rw [lastBlack_iff]
        intro f hfl
        rw [hc f hfl, hroot]
      obtain ⟨t2, ht2, ⟨h2, hrb2⟩, hcol2, hio2⟩ :=
        insertFixup_ok hnew rfl ha hb hlast
      have hio3 : inorder t2 = inorderP p [x] := hio2
      refine ⟨⟨t2, t.size + 1⟩, ?_, ?_, fun hmm => absurd hmm hmem,
        fun _ => ⟨?_, rfl⟩⟩
      · simp [insert, hs, hpos, ht2]
      · refine Inv_intro hcol2 hrb2 ?_ ?_
        · show (inorder t2).Sorted _
          rw [hio3]
          exact hg
        · show t.size + 1 = _
          have hlen := hf.length_eq
          simp only [List.length_cons] at hlen
          show t.size + 1 = ((inorder t2).length : Int)
          rw [hio3, hlen, hsize, count_eq_length_inorder]
          push_cast
          ring
      · show List.Perm (inorder t2) (x :: inorder t.root)
        rw [hio3]
        exact hf

/-! ## Correctness of the deleteFixup loop -/

/-- The focus of the `deleteFixup` loop: a valid subtree, except that a red
root may have red children for one iteration (the state passed upward by
case 2, immediately repainted black). -/
inductive ARB : Tree → Nat → Prop where
  | ofRB {t : Tree} {h : Nat} : IsRB t h → ARB t h
  | rnode {l r : Tree} {v : Int} {h : Nat} :
      IsRB l h → IsRB r h → ARB (.node .red l v r) h

theorem ARB.setBlack_arb {t : Tree} {h : Nat} (ht : ARB t h) :
    ∃ h2, IsRB (setBlack t) h2 := by
  cases ht with
  | ofRB h2 => exact h2.setBlack_any
  | rnode hl hr => exact ⟨_, IsRB.black hl hr⟩

theorem ARB.setBlack_of_red {t : Tree} {h : Nat} (ht : ARB t h)
    (hred : rootColor t = .red) : IsRB (setBlack t) (h + 1) := by
  cases ht with
  | ofRB h2 => exact h2.setBlack_red hred
  | rnode hl hr => exact IsRB.black hl hr

theorem ARB.isRB_of_not_red {t : Tree} {h : Nat} (ht : ARB t h)
    (hnr : ¬ isRed t = true) : IsRB t h := by
  cases ht with
  | ofRB h2 => exact h2
  | rnode hl hr => simp [isRed] at hnr

theorem dfLoopF_exit {fuel : Nat} {p : Path} {n : Tree} {p2 : Path} {n2 : Tree}
    (hfuel : 0 < fuel) (hstep : dfStep p n = some (.inl (p2, n2))) :
    dfLoopF fuel p n = some (some (plugPath p2 (setBlack n2))) := by
  cases fuel with
  | zero => omega
  | succ fuel => simp [dfLoopF, hstep]

theorem dfLoopF_cont {fuel : Nat} {p : Path} {n : Tree} {p2 : Path} {n2 : Tree}
    (hstep : dfStep p n = some (.inr (p2, n2))) :
    dfLoopF (fuel + 1) p n = dfLoopF fuel p2 n2 := by
  simp [dfLoopF, hstep]

/-- A red focus always ends the loop at the next test (it is painted black and
the tree rebuilt, lines 301 and 366-368). -/
theorem dfLoop_red_exit {fuel : Nat} {p : Path} {n : Tree} (hred : isRed n = true)
    (hfuel : 0 < fuel) :
    dfLoopF fuel p n = some (some (plugPath p (setBlack n))) := by
  cases fuel with
  | zero => omega
  | succ fuel =>
    cases p with
    | nil => simp [dfLoopF, dfStep]
    | cons f rest => simp [dfLoopF, dfStep, hred]

theorem nilOrBlack_of_isRB_red {l r : Tree} {v : Int} {h : Nat}
    (hrb : IsRB (.node .red l v r) h) :
    nilOrBlack l = true ∧ nilOrBlack r = true := by
  cases hrb with
  | red hl hr cl cr =>
    exact ⟨nilOrBlack_iff_rootColor.2 cl, nilOrBlack_iff_rootColor.2 cr⟩

/-- Cases 3 and 4 of `deleteFixup` for a left-hanging focus: with the sibling
not having two black children, the terminal double rotation produces a valid
subtree absorbing the missing black and the loop exits at the root. -/
theorem case34L_ok {fc : Color} {fv wv : Int} {q : Path} {n wl wr : Tree} {h : Nat}
    (hn : IsRB n h) (hwl : IsRB wl h) (hwr : IsRB wr h)
    (hcond : (nilOrBlack wl && nilOrBlack wr) = false)
    (hsibq : sibOk q (h + 1 + (if fc = .black then 1 else 0)))
    (hchq : q.Chain' redParentOk)
    (hcompat : ∀ g, q.head? = some g → g.c = .red → fc = .black) :
    ∃ r, dfBodyL fc fv q n wl wv wr = some (.inl ([], r)) ∧
      (∃ h2, IsRB (setBlack r) h2) ∧ rootColor (setBlack r) = .black ∧
      inorder (setBlack r) =
        inorderP q (inorder n ++ fv :: (inorder wl ++ wv :: inorder wr)) := by
  have hGv : ∀ G : Tree, IsRB G (h + 1 + (if fc = .black then 1 else 0)) →
      rootColor G = fc → ∃ h2, IsRB (setBlack (plugPath q G)) h2 := by
    intro G hG hGc
    have hcompat2 : ∀ g, q.head? = some g → g.c = .red → rootColor G = .black := by
      intro g hg hgc
      rw [hGc]
      exact hcompat g hg hgc
    exact (plug_isRB hsibq hchq hG hcompat2).setBlack_any
  by_cases hwrb : nilOrBlack wr = true
  · -- case 3: the sibling's left child is red
    have hwlr : nilOrBlack wl = false := by
      cases hb : nilOrBlack wl with
      | false => rfl
      | true => rw [hb, hwrb] at hcond; simp at hcond
    have hwlred : rootColor wl = .red := by
      cases hcl : rootColor wl with
      | red => rfl
      | black => rw [nilOrBlack_iff_rootColor.2 hcl] at hwlr; cases hwlr
    cases wl with
    | nil => cases hwlred
    | node c2 a av b =>
      simp only [rootColor] at hwlred
      subst hwlred
      cases hwl with
      | red ha hb2 ca cb =>
        refine ⟨plugPath q (.node fc (.node .black n fv a) av
          (.node .black b wv wr)), ?_, ?_, rootColor_setBlack _, ?_⟩
        · simp [dfBodyL, hcond, hwrb, hwlr]
        · refine hGv _ ?_ rfl
          cases fc with
          | red => simpa using IsRB.red (IsRB.black hn ha) (IsRB.black hb2 hwr) rfl rfl
          | black => simpa using IsRB.black (IsRB.black hn ha) (IsRB.black hb2 hwr)
        · rw [inorder_setBlack, inorder_plugPath]
          congr 1
          simp [inorder, List.append_assoc]
  · -- case 4: the sibling's right child is red
    have hwrred : rootColor wr = .red := by
      cases hcl : rootColor wr with
      | red => rfl
      | black => rw [nilOrBlack_iff_rootColor.2 hcl] at hwrb; cases hwrb rfl
    cases wr with
    | nil => cases hwrred
    | node c2 a2 av2 b2 =>
      simp only [rootColor] at hwrred
      subst hwrred
      cases hwr with
      | red ha2 hb2 ca2 cb2 =>
        refine ⟨plugPath q (.node fc (.node .black n fv wl) wv
          (.node .black a2 av2 b2)), ?_, ?_, rootColor_setBlack _, ?_⟩
        · have hwrb2 : nilOrBlack (Tree.node .red a2 av2 b2) = false := by
            simp [nilOrBlack, isRed]
          simp [dfBodyL, hcond, hwrb2, setBlack]
        · refine hGv _ ?_ rfl
          cases fc with
          | red => simpa using IsRB.red (IsRB.black hn hwl) (IsRB.black ha2 hb2) rfl rfl
          | black => simpa using IsRB.black (IsRB.black hn hwl) (IsRB.black ha2 hb2)
        · rw [inorder_setBlack, inorder_plugPath]
          congr 1
          simp [inorder, List.append_assoc]

/-- Mirror of `case34L_ok` for a right-hanging focus. -/
theorem case34R_ok {fc : Color} {fv wv : Int} {q : Path} {n wl wr : Tree} {h : Nat}
    (hn : IsRB n h) (hwl : IsRB wl h) (hwr : IsRB wr h)
    (hcond : (nilOrBlack wr && nilOrBlack wl) = false)
    (hsibq : sibOk q (h + 1 + (if fc = .black then 1 else 0)))
    (hchq : q.Chain' redParentOk)
    (hcompat : ∀ g, q.head? = some g → g.c = .red → fc = .black) :
    ∃ r, dfBodyR fc fv q n wl wv wr = some (.inl ([], r)) ∧
      (∃ h2, IsRB (setBlack r) h2) ∧ rootColor (setBlack r) = .black ∧
      inorder (setBlack r) =
        inorderP q ((inorder wl ++ wv :: inorder wr) ++ fv :: inorder n) := by
  have hGv : ∀ G : Tree, IsRB G (h + 1 + (if fc = .black then 1 else 0)) →
      rootColor G = fc → ∃ h2, IsRB (setBlack (plugPath q G)) h2 := by
    intro G hG hGc
    have hcompat2 : ∀ g, q.head? = some g → g.c = .red → rootColor G = .black := by
      intro g hg hgc
      rw [hGc]
      exact hcompat g hg hgc
    exact (plug_isRB hsibq hchq hG hcompat2).setBlack_any
  by_cases hwlb : nilOrBlack wl = true
  · -- case 3: the sibling's right child is red
    have hwrr : nilOrBlack wr = false := by
      cases hb : nilOrBlack wr with
      | false => rfl
      | true => rw [hb, hwlb] at hcond; simp at hcond
    have hwrred : rootColor wr = .red := by
      cases hcl : rootColor wr with
      | red => rfl
      | black => rw [nilOrBlack_iff_rootColor.2 hcl] at hwrr; cases hwrr
    cases wr with
    | nil => cases hwrred
    | node c2 a av b =>
      simp only [rootColor] at hwrred
      subst hwrred
      cases hwr with
      | red ha hb2 ca cb =>
        refine ⟨plugPath q (.node fc (.node .black wl wv a) av
          (.node .black b fv n)), ?_, ?_, rootColor_setBlack _, ?_⟩
        · simp [dfBodyR, hcond, hwlb, hwrr]
        · refine hGv _ ?_ rfl
          cases fc with
          | red => simpa using IsRB.red (IsRB.black hwl ha) (IsRB.black hb2 hn) rfl rfl
          | black => simpa using IsRB.black (IsRB.black hwl ha) (IsRB.black hb2 hn)
        · rw [inorder_setBlack, inorder_plugPath]
          congr 1
          simp [inorder, List.append_assoc]
  · -- case 4: the sibling's left child is red
    have hwlred : rootColor wl = .red := by
      cases hcl : rootColor wl with
      | red => rfl
      | black => rw [nilOrBlack_iff_rootColor.2 hcl] at hwlb; cases hwlb rfl
    cases wl with
    | nil => cases hwlred
    | node c2 a2 av2 b2 =>
      simp only [rootColor] at hwlred
      subst hwlred
      cases hwl with
      | red ha2 hb2 ca2 cb2 =>
        refine ⟨plugPath q (.node fc (.node .black a2 av2 b2) wv
          (.node .black wr fv n)), ?_, ?_, rootColor_setBlack _, ?_⟩
        · have hwlb2 : nilOrBlack (Tree.node .red a2 av2 b2) = false := by
            simp [nilOrBlack, isRed]
          simp [dfBodyR, hcond, hwlb2, setBlack]
        · refine hGv _ ?_ rfl
          cases fc with
          | red => simpa using IsRB.red (IsRB.black ha2 hb2) (IsRB.black hwr hn) rfl rfl
          | black => simpa using IsRB.black (IsRB.black ha2 hb2) (IsRB.black hwr hn)
        · rw [inorder_setBlack, inorder_plugPath]
          congr 1
          simp [inorder, List.append_assoc]


/-- Main invariant of the `deleteFixup` loop: the focus is one black short of
what its context requires (`sibOk p (h + 1)` against a focus of black height
`h`); the loop ends with a valid black-rooted tree with the same in-order
traversal and never dereferences nil. -/
theorem dfLoop_ok (fuel : Nat) :
    ∀ (p : Path) (n : Tree) (h : Nat),
    p.length + 2 ≤ fuel → ARB n h →
    sibOk p (h + 1) → p.Chain' redParentOk → lastBlack p →
    ∃ t2, dfLoopF fuel p n = some (some t2) ∧ (∃ h2, IsRB t2 h2) ∧
      rootColor t2 = .black ∧ inorder t2 = inorderP p (inorder n) := by
  induction fuel with
  | zero =>
    intro p n h hfuel harb hsib hch hlast
    omega
  | succ fuel ih =>
    intro p n h hfuel harb hsib hch hlast
    cases p with
    | nil =>
      refine ⟨setBlack n, dfLoopF_exit (Nat.succ_pos _)
        (show dfStep [] n = some (.inl ([], n)) from rfl), harb.setBlack_arb,
        rootColor_setBlack _, ?_⟩
      rw [inorder_setBlack]
      rfl
    | cons f rest =>
      by_cases hnred : isRed n = true
      · -- the loop condition fails on a red focus; it is painted black
        refine ⟨plugPath (f :: rest) (setBlack n),
          dfLoop_red_exit hnred (Nat.succ_pos _), ?_, ?_, ?_⟩
        · have hsb : IsRB (setBlack n) (h + 1) :=
            harb.setBlack_of_red (isRed_iff_rootColor.1 hnred)
          exact ⟨_, plug_isRB hsib hch hsb
            (fun g _ _ => rootColor_setBlack _)⟩
        · exact rootColor_plugPath hlast (by simp)
        · rw [inorder_plugPath, inorder_setBlack]
      · have hrb : IsRB n h := harb.isRB_of_not_red hnred
        obtain ⟨fd, fc, fv, fs⟩ := f
        obtain ⟨hfs, hfred, hsib2⟩ := sibOk_cons.1 hsib
        rw [List.chain'_cons'] at hch
        obtain ⟨hfg, hch2⟩ := hch
        simp only at hfs hfred hsib2
        have hlastr : rest ≠ [] → lastBlack rest := fun hne => lastBlack_cons hlast hne
        have hfsne : fs ≠ .nil := hfs.nonnil_of_pos (by omega)
        cases fs with
        | nil => exact absurd rfl hfsne
        | node wc wl wv wr =>
          cases fd with
          | left =>
            cases wc with
            | black =>
              cases hfs with
              | black hwl hwr =>
                by_cases hc2 : (nilOrBlack wl && nilOrBlack wr) = true
                · -- case 2: the sibling is repainted red, the focus moves up
                  obtain ⟨hcwl, hcwr⟩ := Bool.and_eq_true_iff.1 hc2
                  have hw2 : IsRB (Tree.node .red wl wv wr) h :=
                    IsRB.red hwl hwr (nilOrBlack_iff_rootColor.1 hcwl)
                      (nilOrBlack_iff_rootColor.1 hcwr)
                  have hstep : dfStep (⟨Dir.left, fc, fv,
                      Tree.node .black wl wv wr⟩ :: rest) n =
                      some (.inr (rest, Tree.node fc n fv
                        (Tree.node .red wl wv wr))) := by
                    simp [dfStep, hnred, dfBodyL, hc2]
                  rw [dfLoopF_cont hstep]
                  have hlen : rest.length + 2 ≤ fuel := by
                    simp only [List.length_cons] at hfuel
                    omega
                  have hlast2 : lastBlack rest := by
                    cases rest with
                    | nil => trivial
                    | cons a b => exact hlastr (by simp)
                  have hmain : ∀ h3, ARB (Tree.node fc n fv (Tree.node .red wl wv wr)) h3 →
                      sibOk rest (h3 + 1) →
                      ∃ t2, dfLoopF fuel rest (Tree.node fc n fv (Tree.node .red wl wv wr)) =
                          some (some t2) ∧ (∃ h2, IsRB t2 h2) ∧
                          rootColor t2 = .black ∧
                          inorder t2 = inorderP rest
                            (inorder (Tree.node fc n fv (Tree.node .red wl wv wr))) :=
                    fun h3 ha hs => ih rest _ h3 hlen ha hs hch2 hlast2
                  have hres : ∃ t2, dfLoopF fuel rest
                      (Tree.node fc n fv (Tree.node .red wl wv wr)) = some (some t2) ∧
                      (∃ h2, IsRB t2 h2) ∧ rootColor t2 = .black ∧
                      inorder t2 = inorderP rest
                        (inorder (Tree.node fc n fv (Tree.node .red wl wv wr))) := by
                    cases fc with
                    | red =>
                      refine hmain h (ARB.rnode hrb hw2) ?_
                      simpa [frameInc] using hsib2
                    | black =>
                      refine hmain (h + 1) (ARB.ofRB (IsRB.black hrb hw2)) ?_
                      simpa [frameInc] using hsib2
                  obtain ⟨t2, ht2, hrb2, hcol2, hio2⟩ := hres
                  refine ⟨t2, ht2, hrb2, hcol2, ?_⟩
                  rw [hio2, inorderP_cons]
                  simp [inorder, frameIn, List.append_assoc]
                · -- cases 3-4: terminal restructuring
                  have hcompat : ∀ g, rest.head? = some g → g.c = .red →
                      fc = .black := by
                    intro g hg hgc
                    cases hfc2 : fc with
                    | black => rfl
                    | red =>
                      have := hfg g (by simpa using hg) hfc2
                      rw [this] at hgc
                      cases hgc
                  have hsibq : sibOk rest (h + 1 + (if fc = .black then 1 else 0)) := by
                    cases fc <;> simpa [frameInc] using hsib2
                  obtain ⟨r, hr, hv, hcolr, hior⟩ :=
                    @case34L_ok fc fv wv rest n wl wr h hrb hwl hwr
                      (by simpa using hc2) hsibq hch2 hcompat
                  have hstep : dfStep (⟨Dir.left, fc, fv,
                      Tree.node .black wl wv wr⟩ :: rest) n = some (.inl ([], r)) := by
                    simp [dfStep, hnred, hr]
                  refine ⟨setBlack r, by simpa using dfLoopF_exit (Nat.succ_pos _) hstep,
                    hv, hcolr, ?_⟩
                  rw [hior, inorderP_cons]
                  simp [inorder, frameIn, List.append_assoc]
            | red =>
              -- the sibling is red: lines 304-308 then one of the cases on the
              -- new black sibling w.left
              have hfcb : fc = .black := by
                cases hfc2 : fc with
                | black => rfl
                | red =>
                  have := hfred hfc2
                  simp [rootColor] at this
              subst hfcb
              cases hfs with
              | red hwl hwr cwl cwr =>
                have hwlne : wl ≠ .nil := hwl.nonnil_of_pos (by omega)
                cases wl with
                | nil => exact absurd rfl hwlne
                | node c2 u2 v2 w2 =>
                  simp only [rootColor] at cwl
                  subst cwl
                  cases hwl with
                  | black hu2 hw2 =>
                    have hsibB : sibOk (⟨Dir.left, Color.black, wv, wr⟩ :: rest)
                        (h + 1) := by
                      refine sibOk_cons.2 ⟨hwr, ?_, ?_⟩
                      · intro habs
                        cases habs
                      · simpa [frameInc] using hsib2
                    have hchB : (⟨Dir.left, Color.black, wv, wr⟩ :: rest).Chain'
                        redParentOk :=
                      List.chain'_cons'.2 ⟨fun b _ habs => Color.noConfusion habs, hch2⟩
                    have hlastB : lastBlack (⟨Dir.left, Color.black, wv, wr⟩ :: rest) := by
                      cases rest with
                      | nil => rfl
                      | cons a b =>
                        rw [lastBlack_cons_of_ne (by simp)]
                        exact hlastr (by simp)
                    by_cases hc2 : (nilOrBlack u2 && nilOrBlack w2) = true
                    · -- case 2 after the rotation: the focus becomes red and
                      -- the next test ends the loop
                      obtain ⟨hcu2, hcw2⟩ := Bool.and_eq_true_iff.1 hc2
                      have hstep : dfStep (⟨Dir.left, Color.black, fv,
                          Tree.node .red (Tree.node .black u2 v2 w2) wv wr⟩ :: rest) n =
                          some (.inr (⟨Dir.left, Color.black, wv, wr⟩ :: rest,
                            Tree.node .red n fv (Tree.node .red u2 v2 w2))) := by
                        simp [dfStep, hnred, dfBodyL, hc2]
                      rw [dfLoopF_cont hstep]
                      rw [dfLoop_red_exit (show isRed (Tree.node .red n fv
                        (Tree.node .red u2 v2 w2)) = true from rfl) (by omega)]
                      have hin : IsRB (Tree.node .black n fv
                          (Tree.node .red u2 v2 w2)) (h + 1) :=
                        IsRB.black hrb (IsRB.red hu2 hw2
                          (nilOrBlack_iff_rootColor.1 hcu2)
                          (nilOrBlack_iff_rootColor.1 hcw2))
                      refine ⟨_, rfl, ?_, ?_, ?_⟩
                      · exact ⟨_, plug_isRB hsibB hchB hin
                          (by intro g hg hgc; simp at hg; rw [← hg] at hgc; cases hgc)⟩
                      · exact rootColor_plugPath hlastB (by simp)
                      · rw [inorder_plugPath, inorderP_cons, inorderP_cons]
                        simp [inorder, frameIn, setBlack, List.append_assoc]
                    · -- cases 3-4 after the rotation
                      have hcompat : ∀ g,
                          (⟨Dir.left, Color.black, wv, wr⟩ :: rest).head? = some g →
                          g.c = .red → Color.red = .black := by
                        intro g hg hgc
                        simp only [List.head?_cons, Option.some_inj] at hg
                        rw [← hg] at hgc
                        cases hgc
                      have hsibq : sibOk (⟨Dir.left, Color.black, wv, wr⟩ :: rest)
                          (h + 1 + (if Color.red = .black then 1 else 0)) := by
                        simpa using hsibB
                      obtain ⟨r, hr, hv, hcolr, hior⟩ :=
                        @case34L_ok Color.red fv v2
                          (⟨Dir.left, Color.black, wv, wr⟩ :: rest) n u2 w2 h
                          hrb hu2 hw2 (by simpa using hc2) hsibq hchB hcompat
                      have hstep : dfStep (⟨Dir.left, Color.black, fv,
                          Tree.node .red (Tree.node .black u2 v2 w2) wv wr⟩ :: rest) n =
                          some (.inl ([], r)) := by
                        simp [dfStep, hnred, hr]
                      refine ⟨setBlack r,
                        by simpa using dfLoopF_exit (Nat.succ_pos _) hstep,
                        hv, hcolr, ?_⟩
                      rw [hior, inorderP_cons, inorderP_cons]
                      simp [inorder, frameIn, List.append_assoc]
          | right =>
            cases wc with
            | black =>
              cases hfs with
              | black hwl hwr =>
                by_cases hc2 : (nilOrBlack wr && nilOrBlack wl) = true
                · obtain ⟨hcwr, hcwl⟩ := Bool.and_eq_true_iff.1 hc2
                  have hw2 : IsRB (Tree.node .red wl wv wr) h :=
                    IsRB.red hwl hwr (nilOrBlack_iff_rootColor.1 hcwl)
                      (nilOrBlack_iff_rootColor.1 hcwr)
                  have hstep : dfStep (⟨Dir.right, fc, fv,
                      Tree.node .black wl wv wr⟩ :: rest) n =
                      some (.inr (rest, Tree.node fc
                        (Tree.node .red wl wv wr) fv n)) := by
                    simp [dfStep, hnred, dfBodyR, hc2]
                  rw [dfLoopF_cont hstep]
                  have hlen : rest.length + 2 ≤ fuel := by
                    simp only [List.length_cons] at hfuel
                    omega
                  have hlast2 : lastBlack rest := by
                    cases rest with
                    | nil => trivial
                    | cons a b => exact hlastr (by simp)
                  have hres : ∃ t2, dfLoopF fuel rest
                      (Tree.node fc (Tree.node .red wl wv wr) fv n) = some (some t2) ∧
                      (∃ h2, IsRB t2 h2) ∧ rootColor t2 = .black ∧
                      inorder t2 = inorderP rest
                        (inorder (Tree.node fc (Tree.node .red wl wv wr) fv n)) := by
                    cases fc with
                    | red =>
                      refine ih rest _ h hlen (ARB.rnode hw2 hrb) ?_ hch2 hlast2
                      simpa [frameInc] using hsib2
                    | black =>
                      refine ih rest _ (h + 1) hlen
                        (ARB.ofRB (IsRB.black hw2 hrb)) ?_ hch2 hlast2
                      simpa [frameInc] using hsib2
                  obtain ⟨t2, ht2, hrb2, hcol2, hio2⟩ := hres
                  refine ⟨t2, ht2, hrb2, hcol2, ?_⟩
                  rw [hio2, inorderP_cons]
                  simp [inorder, frameIn, List.append_assoc]
                · have hcompat : ∀ g, rest.head? = some g → g.c = .red →
                      fc = .black := by
                    intro g hg hgc
                    cases hfc2 : fc with
                    | black => rfl
                    | red =>
                      have := hfg g (by simpa using hg) hfc2
                      rw [this] at hgc
                      cases hgc
                  have hsibq : sibOk rest (h + 1 + (if fc = .black then 1 else 0)) := by
                    cases fc <;> simpa [frameInc] using hsib2
                  obtain ⟨r, hr, hv, hcolr, hior⟩ :=
                    @case34R_ok fc fv wv rest n wl wr h hrb hwl hwr
                      (by simpa using hc2) hsibq hch2 hcompat
                  have hstep : dfStep (⟨Dir.right, fc, fv,
                      Tree.node .black wl wv wr⟩ :: rest) n = some (.inl ([], r)) := by
                    simp [dfStep, hnred, hr]
                  refine ⟨setBlack r, by simpa using dfLoopF_exit (Nat.succ_pos _) hstep,
                    hv, hcolr, ?_⟩
                  rw [hior, inorderP_cons]
                  simp [inorder, frameIn, List.append_assoc]
            | red =>
              have hfcb : fc = .black := by
                cases hfc2 : fc with
                | black => rfl
                | red =>
                  have := hfred hfc2
                  simp [rootColor] at this
              subst hfcb
              cases hfs with
              | red hwl hwr cwl cwr =>
                have hwrne : wr ≠ .nil := hwr.nonnil_of_pos (by omega)
                cases wr with
                | nil => exact absurd rfl hwrne
                | node c2 u2 v2 w2 =>
                  simp only [rootColor] at cwr
                  subst cwr
                  cases hwr with
                  | black hu2 hw2 =>
                    have hsibB : sibOk (⟨Dir.right, Color.black, wv, wl⟩ :: rest)
                        (h + 1) := by
                      refine sibOk_cons.2 ⟨hwl, ?_, ?_⟩
                      · intro habs
                        cases habs
                      · simpa [frameInc] using hsib2
                    have hchB : (⟨Dir.right, Color.black, wv, wl⟩ :: rest).Chain'
                        redParentOk :=
                      List.chain'_cons'.2 ⟨fun b _ habs => Color.noConfusion habs, hch2⟩
                    have hlastB : lastBlack (⟨Dir.right, Color.black, wv, wl⟩ :: rest) := by
                      cases rest with
                      | nil => rfl
                      | cons a b =>
                        rw [lastBlack_cons_of_ne (by simp)]
                        exact hlastr (by simp)
                    by_cases hc2 : (nilOrBlack w2 && nilOrBlack u2) = true
                    · obtain ⟨hcw2, hcu2⟩ := Bool.and_eq_true_iff.1 hc2
                      have hstep : dfStep (⟨Dir.right, Color.black, fv,
                          Tree.node .red wl wv (Tree.node .black u2 v2 w2)⟩ :: rest) n =
                          some (.inr (⟨Dir.right, Color.black, wv, wl⟩ :: rest,
                            Tree.node .red (Tree.node .red u2 v2 w2) fv n)) := by
                        simp [dfStep, hnred, dfBodyR, hc2]
                      rw [dfLoopF_cont hstep]
                      rw [dfLoop_red_exit (show isRed (Tree.node .red
                        (Tree.node .red u2 v2 w2) fv n) = true from rfl) (by omega)]
                      have hin : IsRB (Tree.node .black
                          (Tree.node .red u2 v2 w2) fv n) (h + 1) :=
                        IsRB.black (IsRB.red hu2 hw2
                          (nilOrBlack_iff_rootColor.1 hcu2)
                          (nilOrBlack_iff_rootColor.1 hcw2)) hrb
                      refine ⟨_, rfl, ?_, ?_, ?_⟩
                      · exact ⟨_, plug_isRB hsibB hchB hin
                          (by intro g hg hgc; simp at hg; rw [← hg] at hgc; cases hgc)⟩
                      · exact rootColor_plugPath hlastB (by simp)
                      · rw [inorder_plugPath, inorderP_cons, inorderP_cons]
                        simp [inorder, frameIn, setBlack, List.append_assoc]
                    · have hcompat : ∀ g,
                          (⟨Dir.right, Color.black, wv, wl⟩ :: rest).head? = some g →
                          g.c = .red → Color.red = .black := by
                        intro g hg hgc
                        simp only [List.head?_cons, Option.some_inj] at hg
                        rw [← hg] at hgc
                        cases hgc
                      have hsibq : sibOk (⟨Dir.right, Color.black, wv, wl⟩ :: rest)
                          (h + 1 + (if Color.red = .black then 1 else 0)) := by
                        simpa using hsibB
                      obtain ⟨r, hr, hv, hcolr, hior⟩ :=
                        @case34R_ok Color.red fv v2
                          (⟨Dir.right, Color.black, wv, wl⟩ :: rest) n u2 w2 h
                          hrb hu2 hw2 (by simpa using hc2) hsibq hchB hcompat
                      have hstep : dfStep (⟨Dir.right, Color.black, fv,
                          Tree.node .red wl wv (Tree.node .black u2 v2 w2)⟩ :: rest) n =
                          some (.inl ([], r)) := by
                        simp [dfStep, hnred, hr]
                      refine ⟨setBlack r,
                        by simpa using dfLoopF_exit (Nat.succ_pos _) hstep,
                        hv, hcolr, ?_⟩
                      rw [hior, inorderP_cons, inorderP_cons]
                      simp [inorder, frameIn, List.append_assoc]

/-! ## The descent of Delete and the successor -/

theorem deleteFixup_ok {p : Path} {n : Tree} {h : Nat} (harb : ARB n h)
    (hsib : sibOk p (h + 1)) (hch : p.Chain' redParentOk) (hlast : lastBlack p) :
    ∃ t2, deleteFixup p n = some t2 ∧ (∃ h2, IsRB t2 h2) ∧
      rootColor t2 = .black ∧ inorder t2 = inorderP p (inorder n) := by
  obtain ⟨t2, ht2, hx⟩ :=
    dfLoop_ok (p.length + 2) p n h (by omega) harb hsib hch hlast
  exact ⟨t2, by simp [deleteFixup, ht2], hx⟩

theorem IsRB.nil_elim {h : Nat} (hrb : IsRB .nil h) : h = 0 := by
  cases hrb
  rfl

theorem IsRB.zero_black_nil {t : Tree} (hrb : IsRB t 0)
    (hc : rootColor t = .black) : t = .nil := by
  cases hrb with
  | nil => rfl
  | red hl hr cl cr => cases hc

theorem inorderP_shape (p : Path) :
    ∃ X Y, ∀ acc : List Int, inorderP p acc = X ++ acc ++ Y := by
  induction p with
  | nil => exact ⟨[], [], by simp [inorderP]⟩
  | cons f rest ih =>
    obtain ⟨X, Y, hXY⟩ := ih
    cases f with
    | mk d c v s =>
      cases d with
      | left =>
        refine ⟨X, v :: inorder s ++ Y, fun acc => ?_⟩
        rw [inorderP_cons, hXY]
        simp [frameIn]
      | right =>
        refine ⟨X ++ inorder s ++ [v], Y, fun acc => ?_⟩
        rw [inorderP_cons, hXY]
        simp [frameIn]

/-- Erasing a value from a sorted list removes exactly its occurrence. -/
theorem erase_sorted_middle {L R : List Int} {x : Int}
    (hs : (L ++ x :: R).Sorted (· < ·)) : (L ++ x :: R).erase x = L ++ R := by
  induction L with
  | nil =>
    show (x :: R).erase x = R
    exact List.erase_cons_head x R
  | cons a L ih =>
    rw [List.cons_append] at hs
    rw [List.sorted_cons] at hs
    have hax : a < x := hs.1 x (by simp)
    have hne : ¬ a = x := by omega
    rw [List.cons_append, List.erase_cons, List.cons_append]
    simp only [beq_iff_eq, hne, if_false]
    rw [ih hs.2]

/-- Everything the descent of `findNode` guarantees about the context of the
located node, in a tree with the color and ordering invariants. -/
theorem findNode_ok {x : Int} {t : Tree} {h0 : Nat} {p : Path} {sub : Tree}
    (hrb : IsRB t h0) (hbst : isBST t) (hfind : findNode x t = some (p, sub)) :
    ∃ hs, IsRB sub hs ∧ sibOk p hs ∧ p.Chain' redParentOk ∧
      pathInc p + hs = h0 ∧
      (∀ f, p.getLast? = some f → f.c = rootColor t) ∧
      (p = [] → sub = t) ∧
      (rootColor sub = .red → ∀ g, p.head? = some g → g.c = .black) ∧
      (∃ nc nl nr, sub = .node nc nl x nr) ∧
      inorderP p (inorder sub) = inorder t := by
  induction t generalizing p h0 sub with
  | nil => simp [findNode] at hfind
  | node c l v r ihl ihr =>
    obtain ⟨h2, hl, hr, hh, hcol⟩ := hrb.node_elim
    obtain ⟨hal, har, hbl, hbr⟩ := isBST_node hbst
    simp only [findNode] at hfind
    by_cases hxv : x = v
    · rw [if_pos hxv] at hfind
      simp only [Option.some_inj, Prod.mk.injEq] at hfind
      obtain ⟨hp, hsub⟩ := hfind
      subst hp
      subst hxv
      refine ⟨h0, hsub ▸ hrb, trivial, List.chain'_nil, by simp [pathInc],
        by simp, fun _ => hsub.symm, by simp, ⟨c, l, r, hsub.symm⟩, ?_⟩
      rw [inorderP_nil, ← hsub]
    · rw [if_neg hxv] at hfind
      by_cases hlt : x < v
      · rw [if_pos hlt, Option.map_eq_some'] at hfind
        obtain ⟨⟨pl, subl⟩, hpl, hp⟩ := hfind
        simp only [Prod.mk.injEq] at hp
        obtain ⟨hp1, hp2⟩ := hp
        subst hp1
        subst hp2
        obtain ⟨hs, ha, hb, hcch, hd, he, hemp, hhead, hshape, hio⟩ := ihl hl hbl hpl
        refine ⟨hs, ha, ?_, ?_, ?_, ?_, by simp, ?_, hshape, ?_⟩
        · rw [sibOk_append]
          refine ⟨hb, ?_⟩
          rw [sibOk_cons]
          refine ⟨?_, fun hcf => (hcol hcf).2, trivial⟩
          rw [Nat.add_comm, hd]
          exact hr
        · rw [List.chain'_append]
          refine ⟨hcch, List.chain'_singleton _, ?_⟩
          intro a hga b hgb
          simp only [List.head?_cons, Option.mem_def, Option.some_inj] at hgb
          subst hgb
          intro hared
          have hrl : rootColor l = .red := by rw [← he a hga]; exact hared
          show c = .black
          cases hcc : c with
          | black => rfl
          | red =>
            have := (hcol hcc).1
            rw [this] at hrl
            cases hrl
        · rw [pathInc_append, pathInc_cons, pathInc_nil]
          simp only [frameInc]
          omega
        · intro f2 hf2
          rw [List.getLast?_concat] at hf2
          cases hf2
          rfl
        · intro hred g hg
          cases pl with
          | nil =>
            simp only [List.nil_append, List.head?_cons, Option.some_inj] at hg
            subst hg
            rw [hemp rfl] at hred
            show c = .black
            cases hcc : c with
            | black => rfl
            | red =>
              have := (hcol hcc).1
              rw [hred] at this
              cases this
          | cons g2 q2 =>
            have : g2 = g := by simpa using hg
            subst this
            exact hhead hred g2 rfl
        · rw [inorderP_append, inorderP_cons, inorderP_nil, hio]
          rfl
      · rw [if_neg hlt, Option.map_eq_some'] at hfind
        obtain ⟨⟨pr, subr⟩, hpr, hp⟩ := hfind
        simp only [Prod.mk.injEq] at hp
        obtain ⟨hp1, hp2⟩ := hp
        subst hp1
        subst hp2
        obtain ⟨hs, ha, hb, hcch, hd, he, hemp, hhead, hshape, hio⟩ := ihr hr hbr hpr
        refine ⟨hs, ha, ?_, ?_, ?_, ?_, by simp, ?_, hshape, ?_⟩
        · rw [sibOk_append]
          refine ⟨hb, ?_⟩
          rw [sibOk_cons]
          refine ⟨?_, fun hcf => (hcol hcf).1, trivial⟩
          rw [Nat.add_comm, hd]
          exact hl
        · rw [List.chain'_append]
          refine ⟨hcch, List.chain'_singleton _, ?_⟩
          intro a hga b hgb
          simp only [List.head?_cons, Option.mem_def, Option.some_inj] at hgb
          subst hgb
          intro hared
          have hrl : rootColor r = .red := by rw [← he a hga]; exact hared
          show c = .black
          cases hcc : c with
          | black => rfl
          | red =>
            have := (hcol hcc).2
            rw [this] at hrl
            cases hrl
        · rw [pathInc_append, pathInc_cons, pathInc_nil]
          simp only [frameInc]
          omega
        · intro f2 hf2
          rw [List.getLast?_concat] at hf2
          cases hf2
          rfl
        · intro hred g hg
          cases pr with
          | nil =>
            simp only [List.nil_append, List.head?_cons, Option.some_inj] at hg
            subst hg
            rw [hemp rfl] at hred
            show c = .black
            cases hcc : c with
            | black => rfl
            | red =>
              have := (hcol hcc).2
              rw [hred] at this
              cases this
          | cons g2 q2 =>
            have : g2 = g := by simpa using hg
            subst this
            exact hhead hred g2 rfl
        · rw [inorderP_append, inorderP_cons, inorderP_nil, hio]
          rfl

theorem findNode_none {x : Int} {t : Tree} (hbst : isBST t)
    (hfind : findNode x t = none) : x ∉ inorder t := by
  induction t with
  | nil => simp [inorder]
  | node c l v r ihl ihr =>
    obtain ⟨hal, har, hbl, hbr⟩ := isBST_node hbst
    simp only [findNode] at hfind
    by_cases hxv : x = v
    · simp [hxv] at hfind
    · rw [if_neg hxv] at hfind
      simp only [inorder, List.mem_append, List.mem_cons]
      by_cases hlt : x < v
      · rw [if_pos hlt] at hfind
        simp only [Option.map_eq_none'] at hfind
        rintro (hm | hm | hm)
        · exact ihl hbl hfind hm
        · exact hxv hm
        · have := allTree_iff.1 har x hm
          simp at this
          omega
      · rw [if_neg hlt] at hfind
        simp only [Option.map_eq_none'] at hfind
        rintro (hm | hm | hm)
        · have := allTree_iff.1 hal x hm
          simp at this
          omega
        · exact hxv hm
        · exact ihr hbr hfind hm

/-- Everything `minimum` (as reached from `successor`) guarantees: the leftmost
node of a nonempty subtree, the chain of left-descents to it, and the traversal
decomposition placing its value first. -/
theorem minSplit_ok {t : Tree} {h0 : Nat} (hrb : IsRB t h0) (hne : t ≠ .nil) :
    ∃ yc yv yr,
      (minSplit t).2 = .node yc .nil yv yr ∧
      IsRB (minSplit t).2 (bheight (minSplit t).2) ∧
      sibOk (minSplit t).1 (bheight (minSplit t).2) ∧
      (minSplit t).1.Chain' redParentOk ∧
      pathInc (minSplit t).1 + bheight (minSplit t).2 = h0 ∧
      (∀ f, (minSplit t).1.getLast? = some f → f.c = rootColor t) ∧
      (rootColor (minSplit t).2 = .red →
        ∀ g, (minSplit t).1.head? = some g → g.c = .black) ∧
      ∃ Y, (∀ acc : List Int, inorderP (minSplit t).1 acc = acc ++ Y) ∧
        inorder t = inorder (minSplit t).2 ++ Y := by
  induction t generalizing h0 with
  | nil => exact absurd rfl hne
  | node c l v r ihl ihr =>
    obtain ⟨h2, hl, hr, hh, hcol⟩ := hrb.node_elim
    cases l with
    | nil =>
      refine ⟨c, v, r, rfl, ?_, trivial, List.chain'_nil, ?_, by simp [minSplit],
        ?_, ?_⟩
      · show IsRB (Tree.node c .nil v r) (bheight (Tree.node c .nil v r))
        rw [hrb.bheight_eq]
        exact hrb
      · show pathInc [] + bheight (Tree.node c .nil v r) = h0
        rw [hrb.bheight_eq]
        simp [pathInc]
      · intro hred g hg
        simp [minSplit] at hg
      · exact ⟨[], fun acc => by simp [minSplit, inorderP], by simp [minSplit]⟩
    | node c1 l1 v1 r1 =>
      have h1eq : (minSplit (Tree.node c (Tree.node c1 l1 v1 r1) v r)).1 =
          (minSplit (Tree.node c1 l1 v1 r1)).1 ++ [⟨Dir.left, c, v, r⟩] := rfl
      have h2eq : (minSplit (Tree.node c (Tree.node c1 l1 v1 r1) v r)).2 =
          (minSplit (Tree.node c1 l1 v1 r1)).2 := rfl
      rw [h1eq, h2eq]
      obtain ⟨yc, yv, yr, hyeq, hyrb, hsib, hch, hinc, hlastc, hheadc, Y, hYa, hYb⟩ :=
        ihl hl (by simp)
      refine ⟨yc, yv, yr, hyeq, hyrb, ?_, ?_, ?_, ?_, ?_, ?_⟩
      · rw [sibOk_append]
        refine ⟨hsib, ?_⟩
        rw [sibOk_cons]
        refine ⟨?_, fun hcf => (hcol hcf).2, trivial⟩
        rw [Nat.add_comm, hinc]
        exact hr
      · rw [List.chain'_append]
        refine ⟨hch, List.chain'_singleton _, ?_⟩
        intro a hga b hgb
        simp only [List.head?_cons, Option.mem_def, Option.some_inj] at hgb
        subst hgb
        intro hared
        have hrl : rootColor (Tree.node c1 l1 v1 r1) = .red := by
          rw [← hlastc a hga]
          exact hared
        show c = .black
        cases hcc : c with
        | black => rfl
        | red =>
          have := (hcol hcc).1
          rw [this] at hrl
          cases hrl
      · rw [pathInc_append, pathInc_cons, pathInc_nil]
        simp only [frameInc]
        omega
      · intro f2 hf2
        rw [List.getLast?_concat] at hf2
        cases hf2
        rfl
      · intro hred g hg
        cases hmq : (minSplit (Tree.node c1 l1 v1 r1)).1 with
        | nil =>
          rw [hmq] at hg
          simp only [List.nil_append, List.head?_cons, Option.some_inj] at hg
          subst hg
          have hyl : (minSplit (Tree.node c1 l1 v1 r1)).2 = Tree.node c1 l1 v1 r1 := by
            cases l1 with
            | nil => rfl
            | node d1 d2 d3 d4 =>
              rw [show (minSplit (Tree.node c1 (Tree.node d1 d2 d3 d4) v1 r1)).1 =
                (minSplit (Tree.node d1 d2 d3 d4)).1 ++
                  [⟨Dir.left, c1, v1, r1⟩] from rfl] at hmq
              simp at hmq
          rw [hyl] at hred
          show c = .black
          cases hcc : c with
          | black => rfl
          | red =>
            have h1 := (hcol hcc).1
            rw [hred] at h1
            cases h1
        | cons g2 q2 =>
          rw [hmq] at hg
          have : g2 = g := by simpa using hg
          subst this
          exact hheadc hred g2 (by rw [hmq]; rfl)
      · refine ⟨Y ++ v :: inorder r, fun acc => ?_, ?_⟩
        · rw [inorderP_append, inorderP_cons, inorderP_nil, hYa acc]
          show (acc ++ Y) ++ v :: inorder r = _
          simp [List.append_assoc]
        · show inorder (Tree.node c1 l1 v1 r1) ++ v :: inorder r = _
          rw [hYb]
          simp [List.append_assoc]


/-! ## Correctness of Delete -/

theorem lastBlack_append {q p : Path} (hp : p ≠ []) (h : lastBlack p) :
    lastBlack (q ++ p) := by
  rw [lastBlack_iff] at h ⊢
  intro f hf
  rw [List.getLast?_append_of_ne_nil q hp] at hf
  exact h f hf

/-- Removing the marked value from the hole of a context commutes with
`List.erase` when the whole traversal is sorted. -/
theorem inorderP_erase {p : Path} {A B : List Int} {x : Int}
    (hsort : (inorderP p (A ++ x :: B)).Sorted (· < ·)) :
    (inorderP p (A ++ x :: B)).erase x = inorderP p (A ++ B) := by
  obtain ⟨X, Y, hXY⟩ := inorderP_shape p
  rw [hXY] at hsort
  rw [hXY, hXY]
  have h1 : X ++ (A ++ x :: B) ++ Y = (X ++ A) ++ x :: (B ++ Y) := by simp
  have h2 : X ++ (A ++ B) ++ Y = (X ++ A) ++ (B ++ Y) := by simp
  rw [h1] at hsort
  rw [h1, h2]
  exact erase_sorted_middle hsort

/-- Functional correctness and invariant preservation of `Delete`: on a valid
tree it never dereferences nil, reports absence without mutation, and removes
exactly the located value otherwise, decrementing the size. -/
theorem delete_ok {t : RBTree} {x : Int} (hinv : Inv t) :
    ∃ b t2, delete t x = some (b, t2) ∧ Inv t2 ∧
      (x ∉ inorder t.root → b = false ∧ t2 = t) ∧
      (x ∈ inorder t.root → b = true ∧
        inorder t2.root = (inorder t.root).erase x ∧ t2.size = t.size - 1) := by
  obtain ⟨hroot, hrb0, hbst, hsizec⟩ := Inv_elim hinv
  have hsorted : (inorder t.root).Sorted (· < ·) := Inv_sorted hinv
  have hsize : t.size = ((inorder t.root).length : Int) := Inv_size hinv
  cases hfind : findNode x t.root with
  | none =>
    have hnm := findNode_none hbst hfind
    exact ⟨false, t, by simp [delete, hfind], hinv, fun _ => ⟨rfl, rfl⟩,
      fun hm => absurd hm hnm⟩
  | some ps =>
    obtain ⟨p, sub⟩ := ps
    obtain ⟨hs, hrbs, hsib, hch, hpinc, hlastc, hpe, hheadred,
      ⟨nc, nl, nr, hsubeq⟩, hio⟩ := findNode_ok hrb0 hbst hfind
    subst hsubeq
    have hmem : x ∈ inorder t.root := by
      rw [← hio]
      obtain ⟨X, Y, hXY⟩ := inorderP_shape p
      rw [hXY]
      simp [inorder]
    have hlast : lastBlack p := by
      rw [lastBlack_iff]
      intro f hf
      rw [hlastc f hf, hroot]
    obtain ⟨h2, hnl, hnr, hhs, hcol⟩ := hrbs.node_elim
    have hioeq : inorder t.root = inorderP p (inorder nl ++ x :: inorder nr) := by
      rw [← hio]
      rfl
    have hsort2 : (inorderP p (inorder nl ++ x :: inorder nr)).Sorted (· < ·) := by
      rw [← hioeq]
      exact hsorted
    have herase : (inorder t.root).erase x = inorderP p (inorder nl ++ inorder nr) := by
      rw [hioeq]
      exact inorderP_erase hsort2
    have hpack : ∀ tres : Tree, deleteNode p (Tree.node nc nl x nr) = some tres →
        (∃ hh, IsRB tres hh) → rootColor tres = .black →
        inorder tres = inorderP p (inorder nl ++ inorder nr) →
        ∃ b t2, delete t x = some (b, t2) ∧ Inv t2 ∧
          (x ∉ inorder t.root → b = false ∧ t2 = t) ∧
          (x ∈ inorder t.root → b = true ∧
            inorder t2.root = (inorder t.root).erase x ∧ t2.size = t.size - 1) := by
      intro tres hdel hex hcolres hiores
      obtain ⟨hh, hrbres⟩ := hex
      have hereq : inorder tres = (inorder t.root).erase x := by
        rw [hiores, herase]
      refine ⟨true, ⟨tres, t.size - 1⟩, ?_, ?_, fun hnm => absurd hmem hnm,
        fun _ => ⟨rfl, hereq, rfl⟩⟩
      · simp [delete, hfind, hdel]
      · refine Inv_intro hcolres hrbres ?_ ?_
        · show (inorder tres).Sorted (· < ·)
          rw [hereq]
          exact List.Pairwise.sublist (List.erase_sublist x _) hsorted
        · show t.size - 1 = ((inorder tres).length : Int)
          rw [hereq, List.length_erase_of_mem hmem, hsize]
          have hpos : 0 < (inorder t.root).length := List.length_pos.2 (by
            intro habs
            rw [habs] at hmem
            exact absurd hmem (List.not_mem_nil x))
          push_cast [Nat.cast_sub (show 1 ≤ (inorder t.root).length by omega)]
          ring
    by_cases hone : nl = Tree.nil ∨ nr = Tree.nil
    · -- the located node has at most one child: it is unlinked directly
      cases hncc : nc with
      | black =>
        subst hncc
        have hxs : ∃ xs : Tree, deleteNode p (Tree.node Color.black nl x nr) =
            deleteFixup p xs ∧ IsRB xs h2 ∧
            inorder xs = inorder nl ++ inorder nr := by
          by_cases hnl2 : nl = Tree.nil
          · subst hnl2
            exact ⟨nr, by simp [deleteNode], hnr, by simp [inorder]⟩
          · have hnr2 : nr = Tree.nil := by
              rcases hone with h | h
              · exact absurd h hnl2
              · exact h
            subst hnr2
            exact ⟨nl, by simp [deleteNode, hnl2], hnl, by simp [inorder]⟩
        obtain ⟨xs, hxseq, hxsrb, hxsio⟩ := hxs
        have hsib2 : sibOk p (h2 + 1) := by
          have heq2 : hs = h2 + 1 := by rw [hhs]; simp
          rwa [heq2] at hsib
        obtain ⟨tres, hfix, hv, hcolres, hiores⟩ :=
          deleteFixup_ok (ARB.ofRB hxsrb) hsib2 hch hlast
        refine hpack tres ?_ hv hcolres ?_
        · rw [hxseq]
          exact hfix
        · rw [hiores, hxsio]
      | red =>
        subst hncc
        cases hrbs with
        | red hl2 hr2 cl2 cr2 =>
          have hboth : nl = Tree.nil ∧ nr = Tree.nil := by
            rcases hone with h | h
            · subst h
              have h0 : hs = 0 := hl2.nil_elim
              subst h0
              exact ⟨rfl, hr2.zero_black_nil cr2⟩
            · subst h
              have h0 : hs = 0 := hr2.nil_elim
              subst h0
              exact ⟨hl2.zero_black_nil cl2, rfl⟩
          obtain ⟨hb1, hb2⟩ := hboth
          subst hb1
          subst hb2
          have hs0 : hs = 0 := hl2.nil_elim
          subst hs0
          refine hpack (plugPath p Tree.nil) ?_ ?_ ?_ ?_
          · simp [deleteNode]
          · exact ⟨_, plug_isRB hsib hch IsRB.nil (fun g _ _ => rfl)⟩
          · exact rootColor_plugPath hlast (fun _ => rfl)
          · rw [inorder_plugPath]
            rfl
    · -- two children: the in-order successor is spliced out
      have hcond : ¬ (nl = Tree.nil ∨ nr = Tree.nil) := hone
      push_neg at hone
      obtain ⟨hnlne, hnrne⟩ := hone
      obtain ⟨yc, yv, yr, hyeq, hyrb, hmsib, hmch, hminc, hmlastc, hmheadc,
        Y, hYa, hYb⟩ := minSplit_ok hnr hnrne
      rw [hyeq] at hyrb hmsib hminc hYb
      have hms : minSplit nr = ((minSplit nr).1, Tree.node yc Tree.nil yv yr) := by
        rw [← hyeq]
      -- validity of the assembled context of the successor's position
      have hsibp2 : sibOk ((minSplit nr).1 ++
          ⟨Dir.right, nc, yv, nl⟩ :: p) (bheight (Tree.node yc Tree.nil yv yr)) := by
        rw [sibOk_append]
        refine ⟨hmsib, ?_⟩
        rw [sibOk_cons]
        refine ⟨?_, fun hcf => (hcol hcf).1, ?_⟩
        · rw [Nat.add_comm, hminc]
          exact hnl
        · have heqh : bheight (Tree.node yc Tree.nil yv yr) + pathInc (minSplit nr).1 +
              frameInc ⟨Dir.right, nc, yv, nl⟩ = hs := by
            simp only [frameInc]
            omega
          rw [heqh]
          exact hsib
      have hchp2 : ((minSplit nr).1 ++ ⟨Dir.right, nc, yv, nl⟩ :: p).Chain'
          redParentOk := by
        rw [List.chain'_append]
        refine ⟨hmch, List.chain'_cons'.2 ⟨?_, hch⟩, ?_⟩
        · intro g hg hgc
          exact hheadred (by simpa [rootColor] using hgc) g (by simpa using hg)
        · intro a hga b hgb
          simp only [List.head?_cons, Option.mem_def, Option.some_inj] at hgb
          subst hgb
          intro hared
          have hrl : rootColor nr = .red := by
            rw [← hmlastc a hga]
            exact hared
          show nc = .black
          cases hnc2 : nc with
          | black => rfl
          | red =>
            have := (hcol hnc2).2
            rw [this] at hrl
            cases hrl
      have hlastp2 : lastBlack ((minSplit nr).1 ++ ⟨Dir.right, nc, yv, nl⟩ :: p) := by
        cases hp : p with
        | nil =>
          have hsubt : Tree.node nc nl x nr = t.root := hpe hp
          have hncb : nc = .black := by
            have hb := hroot
            rw [← hsubt] at hb
            simpa [rootColor] using hb
          subst hp
          exact lastBlack_append_singleton hncb
        | cons g p3 =>
          subst hp
          exact lastBlack_append (by simp) hlast
      have hiob : ∀ z : Tree, inorderP ((minSplit nr).1 ++
          ⟨Dir.right, nc, yv, nl⟩ :: p) (inorder z) =
          inorderP p (inorder nl ++ yv :: (inorder z ++ Y)) := by
        intro z
        rw [inorderP_append, inorderP_cons, hYa]
        rfl
      have hBdec : inorder nl ++ inorder nr =
          inorder nl ++ yv :: (inorder yr ++ Y) := by
        rw [hYb]
        simp [inorder]
      have hdelred : deleteNode p (Tree.node nc nl x nr) =
          (if yc = .black then
            deleteFixup ((minSplit nr).1 ++ ⟨Dir.right, nc, yv, nl⟩ :: p) yr
          else
            some (plugPath ((minSplit nr).1 ++ ⟨Dir.right, nc, yv, nl⟩ :: p) yr)) := by
        rw [show deleteNode p (Tree.node nc nl x nr) =
          (if nl = Tree.nil ∨ nr = Tree.nil then
            (if nc = .black then
              deleteFixup p (if nl ≠ Tree.nil then nl else nr)
            else some (plugPath p (if nl ≠ Tree.nil then nl else nr)))
          else
            match minSplit nr with
            | (sp, .node yc2 .nil yv2 yr2) =>
              if yc2 = .black then
                deleteFixup (sp ++ ⟨Dir.right, nc, yv2, nl⟩ :: p) yr2
              else some (plugPath (sp ++ ⟨Dir.right, nc, yv2, nl⟩ :: p) yr2)
            | _ => none) from rfl]
        rw [if_neg hcond, hms]
      cases hycc : yc with
      | black =>
        subst hycc
        cases hyrb with
        | black hnil2 hyr2 =>
          have h0 : _ = 0 := hnil2.nil_elim
          rw [h0] at hyr2
          obtain ⟨tres, hfix, hv, hcolres, hiores⟩ :=
            deleteFixup_ok (ARB.ofRB hyr2) hsibp2 hchp2 hlastp2
          refine hpack tres ?_ hv hcolres ?_
          · rw [hdelred, if_pos rfl]
            exact hfix
          · rw [hiores, hiob yr, hBdec]
      | red =>
        subst hycc
        cases hyrb with
        | red hnil2 hyr2 cl2 cr2 =>
          have h0 : _ = 0 := hnil2.nil_elim
          rw [h0] at hyr2
          have hyrnil : yr = Tree.nil := hyr2.zero_black_nil cr2
          subst hyrnil
          refine hpack (plugPath ((minSplit nr).1 ++
            ⟨Dir.right, nc, yv, nl⟩ :: p) Tree.nil) ?_ ?_ ?_ ?_
          · rw [hdelred]
            rfl
          · exact ⟨_, plug_isRB hsibp2 hchp2 IsRB.nil (fun g _ _ => rfl)⟩
          · exact rootColor_plugPath hlastp2 (fun habs => by simp at habs)
          · rw [inorder_plugPath]
            rw [show inorder Tree.nil = ([] : List Int) from rfl]
            rw [show ([] : List Int) = inorder Tree.nil from rfl]
            rw [hiob Tree.nil, hBdec]

/-! ## Sequences of operations preserve the invariants -/

theorem sorted_nodup {l : List Int} (h : l.Sorted (· < ·)) : l.Nodup :=
  h.imp (fun hlt => by omega)

theorem Inv_new : Inv new = true := by decide

/-- One public mutating operation from a valid state: the invariants are kept
and the membership evolves according to the reference semantics. -/
theorem applyOp_ok {t : RBTree} (hinv : Inv t = true) (o : Op) :
    ∃ t2, applyOp t o = some t2 ∧ Inv t2 = true ∧
      ∀ v, decide (v ∈ inorder t2.root) = memStep v (decide (v ∈ inorder t.root)) o := by
  cases o with
  | insert y =>
    obtain ⟨t2, heq, hinv2, hmm, hnm⟩ := @insert_ok t y hinv
    refine ⟨t2, heq, hinv2, ?_⟩
    intro v
    have hmemiff : v ∈ inorder t2.root ↔ (v = y ∨ v ∈ inorder t.root) := by
      by_cases hy : y ∈ inorder t.root
      · rw [hmm hy]
        constructor
        · exact fun h => Or.inr h
        · rintro (h | h)
          · exact h ▸ hy
          · exact h
      · obtain ⟨hperm, _⟩ := hnm hy
        rw [hperm.mem_iff]
        simp
    show _ = (if y = v then true else _)
    by_cases hyv : y = v
    · subst hyv
      simp [hmemiff]
    · simp only [hyv, if_false]
      have hiff : v ∈ inorder t2.root ↔ v ∈ inorder t.root := by
        rw [hmemiff]
        constructor
        · rintro (h | h)
          · exact absurd h.symm hyv
          · exact h
        · exact fun h => Or.inr h
      simp [hiff]
  | delete y =>
    obtain ⟨b, t2, heq, hinv2, hnm, hmm⟩ := @delete_ok t y hinv
    refine ⟨t2, by simp [applyOp, heq], hinv2, ?_⟩
    intro v
    have hnodup : (inorder t.root).Nodup := sorted_nodup (Inv_sorted hinv)
    have hmemiff : v ∈ inorder t2.root ↔ (¬ v = y ∧ v ∈ inorder t.root) := by
      by_cases hy : y ∈ inorder t.root
      · obtain ⟨_, herase, _⟩ := hmm hy
        rw [herase, hnodup.mem_erase_iff]
      · rw [(hnm hy).2]
        constructor
        · intro h
          refine ⟨?_, h⟩
          intro hvy
          exact hy (hvy ▸ h)
        · exact fun h => h.2
    show _ = (if y = v then false else _)
    by_cases hyv : y = v
    · subst hyv
      simp [hmemiff]
    · simp only [hyv, if_false]
      have hiff : v ∈ inorder t2.root ↔ v ∈ inorder t.root := by
        rw [hmemiff]
        constructor
        · exact fun h => h.2
        · intro h
          exact ⟨fun hvy => hyv hvy.symm, h⟩
      simp [hiff]
  | clear =>
    refine ⟨RBT.clear t, rfl, Inv_new, ?_⟩
    intro v
    simp [RBT.clear, inorder, memStep]

/-- Running operations from any valid state: the invariants always hold and
membership follows the reference semantics. -/
theorem runFrom_ok (ops : List Op) :
    ∀ t : RBTree, Inv t = true →
    ∃ t2, List.foldlM applyOp t ops = some t2 ∧ Inv t2 = true ∧
      ∀ v, decide (v ∈ inorder t2.root) =
        ops.foldl (memStep v) (decide (v ∈ inorder t.root)) := by
  induction ops with
  | nil =>
    intro t hinv
    exact ⟨t, rfl, hinv, fun v => rfl⟩
  | cons o ops ih =>
    intro t hinv
    obtain ⟨t1, h1, hinv1, hmem1⟩ := applyOp_ok hinv o
    obtain ⟨t2, h2, hinv2, hmem2⟩ := ih t1 hinv1
    refine ⟨t2, ?_, hinv2, ?_⟩
    · rw [List.foldlM_cons, h1]
      exact h2
    · intro v
      rw [List.foldl_cons, hmem2 v, hmem1 v]

theorem runOps_ok (ops : List Op) :
    ∃ t, runOps ops = some t ∧ Inv t = true ∧
      ∀ v, decide (v ∈ inorder t.root) = memModel ops v := by
  obtain ⟨t, h1, h2, h3⟩ := runFrom_ok ops new Inv_new
  refine ⟨t, h1, h2, fun v => ?_⟩
  rw [h3 v]
  rfl

/-! ## The height bound -/

theorem IsRB.height_lt {t : Tree} {h : Nat} (hrb : IsRB t h) :
    height t < 2 * (h : Int) + (if rootColor t = .red then 1 else 0) + 1 := by
  induction hrb with
  | nil => decide
  | red hl hr cl cr ihl ihr =>
    rename_i l r v h
    rw [cl] at ihl
    rw [cr] at ihr
    rw [show (if Color.black = Color.red then (1 : Int) else 0) = 0 from rfl] at ihl ihr
    simp only [height]
    rw [show (if rootColor (Tree.node Color.red l v r) = Color.red then (1 : Int) else 0) = 1
      from rfl]
    have h1 := max_lt ihl ihr
    omega
  | black hl hr ihl ihr =>
    rename_i l r v h
    have hbl : height l < 2 * (h : Int) + 2 := by
      by_cases hcl : rootColor l = Color.red
      · rw [hcl, show (if Color.red = Color.red then (1 : Int) else 0) = 1 from rfl] at ihl
        omega
      · rw [if_neg hcl] at ihl
        omega
    have hbr : height r < 2 * (h : Int) + 2 := by
      by_cases hcr : rootColor r = Color.red
      · rw [hcr, show (if Color.red = Color.red then (1 : Int) else 0) = 1 from rfl] at ihr
        omega
      · rw [if_neg hcr] at ihr
        omega
    simp only [height]
    rw [show (if rootColor (Tree.node Color.black l v r) = Color.red then (1 : Int) else 0) = 0
      from rfl]
    have h1 := max_lt hbl hbr
    push_cast
    omega

theorem IsRB.size_bound {t : Tree} {h : Nat} (hrb : IsRB t h) :
    2 ^ h ≤ count t + 1 := by
  induction hrb with
  | nil => simp [count]
  | red hl hr cl cr ihl ihr =>
    simp only [count]
    omega
  | black hl hr ihl ihr =>
    rename_i l r v h
    simp only [count]
    have hp : 2 ^ (h + 1) = 2 ^ h + 2 ^ h := by
      rw [pow_succ]
      omega
    omega

/-- The static height bound of a valid black-rooted tree. -/
theorem height_le_two_log {t : Tree} {h : Nat} (hrb : IsRB t h)
    (hroot : rootColor t = .black) :
    height t ≤ 2 * (Nat.log 2 (count t + 1) : Int) := by
  have h1 := hrb.height_lt
  rw [hroot, show (if Color.black = Color.red then (1 : Int) else 0) = 0 from rfl] at h1
  have h2 : h ≤ Nat.log 2 (count t + 1) :=
    (Nat.pow_le_iff_le_log (by norm_num) (by omega)).1 hrb.size_bound
  have h3 : (h : Int) ≤ (Nat.log 2 (count t + 1) : Int) := by exact_mod_cast h2
  omega

/-! ## Auxiliary facts feeding the top-level statements -/

theorem memModel_inserts (v : Int) (xs : List Int) :
    ∀ b : Bool, (xs.map Op.insert).foldl (memStep v) b = (b || decide (v ∈ xs)) := by
  induction xs with
  | nil => intro b; simp
  | cons y xs ih =>
    intro b
    rw [List.map_cons, List.foldl_cons, ih]
    by_cases hyv : y = v
    · subst hyv
      simp [memStep]
    · have hvy : ¬ v = y := fun h => hyv h.symm
      simp [memStep, hyv, hvy]

theorem memModel_deletes (v : Int) (xs : List Int) :
    ∀ b : Bool, (xs.map Op.delete).foldl (memStep v) b = (b && !decide (v ∈ xs)) := by
  induction xs with
  | nil => intro b; simp
  | cons y xs ih =>
    intro b
    rw [List.map_cons, List.foldl_cons, ih]
    by_cases hyv : y = v
    · subst hyv
      simp [memStep]
    · have hvy : ¬ v = y := fun h => hyv h.symm
      simp [memStep, hyv, hvy]

theorem eq_nil_of_inorder_eq_nil {t : Tree} (h : inorder t = []) : t = Tree.nil := by
  cases t with
  | nil => rfl
  | node c l v r => simp [inorder] at h

/-- A run of the `insertFixup` loop that succeeds with more fuel either
succeeds identically or runs out with less: it never turns into a nil
dereference. -/
theorem insLoopF_stable (fuel : Nat) : ∀ (F : Nat) (p : Path) (n : Tree) (t2 : Tree),
    insLoopF F p n = some (some t2) →
    insLoopF fuel p n = none ∨ insLoopF fuel p n = some (some t2) := by
  induction fuel with
  | zero => exact fun F p n t2 _ => Or.inl rfl
  | succ fuel ih =>
    intro F p n t2 h
    cases F with
    | zero => exact absurd h (by simp [insLoopF])
    | succ F =>
      cases hstep : insStep p n with
      | none =>
        rw [show insLoopF (F + 1) p n = some none by simp [insLoopF, hstep]] at h
        simp at h
      | some s =>
        cases s with
        | inl pr =>
          obtain ⟨p2, n2⟩ := pr
          rw [insLoopF_exit (Nat.succ_pos F) hstep] at h
          rw [insLoopF_exit (Nat.succ_pos fuel) hstep]
          exact Or.inr h
        | inr pr =>
          obtain ⟨p2, n2⟩ := pr
          rw [insLoopF_cont hstep] at h
          rw [insLoopF_cont hstep]
          exact ih F p2 n2 t2 h

/-- Companion of `insLoopF_stable` for the `deleteFixup` loop. -/
theorem dfLoopF_stable (fuel : Nat) : ∀ (F : Nat) (p : Path) (n : Tree) (t2 : Tree),
    dfLoopF F p n = some (some t2) →
    dfLoopF fuel p n = none ∨ dfLoopF fuel p n = some (some t2) := by
  induction fuel with
  | zero => exact fun F p n t2 _ => Or.inl rfl
  | succ fuel ih =>
    intro F p n t2 h
    cases F with
    | zero => exact absurd h (by simp [dfLoopF])
    | succ F =>
      cases hstep : dfStep p n with
      | none =>
        rw [show dfLoopF (F + 1) p n = some none by simp [dfLoopF, hstep]] at h
        simp at h
      | some s =>
        cases s with
        | inl pr =>
          obtain ⟨p2, n2⟩ := pr
          rw [dfLoopF_exit (Nat.succ_pos F) hstep] at h
          rw [dfLoopF_exit (Nat.succ_pos fuel) hstep]
          exact Or.inr h
        | inr pr =>
          obtain ⟨p2, n2⟩ := pr
          rw [dfLoopF_cont hstep] at h
          rw [dfLoopF_cont hstep]
          exact ih F p2 n2 t2 h

/-! ## The verified top-level properties -/

/-- C1: for every finite sequence of Insert, Delete and Clear operations from a
newly constructed tree, the run succeeds and afterwards the five Red-Black
invariants hold: the root is black, no red node has a red child, every path to
an absent-child position crosses the same number of black nodes, the tree is a
valid BST, and the size field equals the number of reachable nodes.  Every
prefix of a sequence is itself a sequence, so this holds after each operation
returns. -/
theorem C1_invariants_hold (ops : List Op) :
    ∃ t, runOps ops = some t ∧ rootColor t.root = Color.black ∧
      noRedRed t.root = true ∧ bhOk t.root = true ∧ isBST t.root = true ∧
      t.size = (count t.root : Int) := by
  obtain ⟨t, h1, h2, _⟩ := runOps_ok ops
  simp only [Inv, Bool.and_eq_true, beq_iff_eq] at h2
  exact ⟨t, h1, h2.1.1.1.1, h2.1.1.1.2, h2.1.1.2, h2.1.2, h2.2⟩

/-- C2: deleting a value whose node has two children uses the in-order
successor: the leftmost node of the right subtree, which has no left child and
whose value heads the right subtree's traversal; `deleteNode` copies that value
into the focus frame (same color, same left child) and splices the successor's
only possible child in its place.  Afterwards the in-order sequence is the old
one with the value erased.  The spec's concrete run (insert 50,30,70,20,40,60,80
then delete 30) is included. -/
theorem C2_two_child_delete {t : RBTree} {x : Int} {p : Path} {c : Color}
    {l r : Tree} (hinv : Inv t = true)
    (hfind : findNode x t.root = some (p, Tree.node c l x r))
    (hl : l ≠ Tree.nil) (hr : r ≠ Tree.nil) :
    (∃ yc yv yr, minSplit r = ((minSplit r).1, Tree.node yc Tree.nil yv yr) ∧
      (inorder r).head? = some yv ∧
      deleteNode p (Tree.node c l x r) =
        (if yc = Color.black
         then deleteFixup ((minSplit r).1 ++ ⟨Dir.right, c, yv, l⟩ :: p) yr
         else some (plugPath ((minSplit r).1 ++ ⟨Dir.right, c, yv, l⟩ :: p) yr))) ∧
    (∃ t2, delete t x = some (true, t2) ∧
      inorder t2.root = (inorder t.root).erase x) ∧
    (runOps ((([50, 30, 70, 20, 40, 60, 80] : List Int).map Op.insert) ++
        [Op.delete 30])).map (fun u => inorder u.root) =
      some [20, 40, 50, 60, 70, 80] := by
  obtain ⟨hroot, hrb0, hbst, hsizec⟩ := Inv_elim hinv
  obtain ⟨hs, hrbs, hsib, hch, hpinc, hlastc, hpe, hheadred, _, hio⟩ :=
    findNode_ok hrb0 hbst hfind
  obtain ⟨h2, hrl, hrr, hh, hcol⟩ := hrbs.node_elim
  refine ⟨?_, ?_, by rfl⟩
  · obtain ⟨yc, yv, yr, hms2, hrby, hsiby, hchy, hpincy, hlasty, hheady, Y, hYacc, hYio⟩ :=
      minSplit_ok hrr hr
    have hmsfull : minSplit r = ((minSplit r).1, Tree.node yc Tree.nil yv yr) := by
      rw [← hms2]
    refine ⟨yc, yv, yr, hmsfull, ?_, ?_⟩
    · rw [hYio, hms2]
      simp [inorder]
    · simp only [deleteNode]
      rw [if_neg (by push_neg; exact ⟨hl, hr⟩)]
      rw [hmsfull]
  · have hmem : x ∈ inorder t.root := by
      obtain ⟨X, Y2, hXY⟩ := inorderP_shape p
      rw [← hio, hXY]
      simp [inorder]
    obtain ⟨b, t2, hdel, hinv2, hnm, hmm⟩ := @delete_ok t x hinv
    obtain ⟨hb, herase, _⟩ := hmm hmem
    subst hb
    exact ⟨t2, hdel, herase⟩

/-- Concrete instance of C2: the tree built by inserting 50,30,70,20,40,60,80,
whose node 30 has two children. -/
theorem C2_two_child_delete_witness :
    Inv ⟨Tree.node Color.black
        (Tree.node Color.black (Tree.node Color.red Tree.nil 20 Tree.nil) 30
          (Tree.node Color.red Tree.nil 40 Tree.nil)) 50
        (Tree.node Color.black (Tree.node Color.red Tree.nil 60 Tree.nil) 70
          (Tree.node Color.red Tree.nil 80 Tree.nil)), 7⟩ = true ∧
    findNode 30 (Tree.node Color.black
        (Tree.node Color.black (Tree.node Color.red Tree.nil 20 Tree.nil) 30
          (Tree.node Color.red Tree.nil 40 Tree.nil)) 50
        (Tree.node Color.black (Tree.node Color.red Tree.nil 60 Tree.nil) 70
          (Tree.node Color.red Tree.nil 80 Tree.nil))) =
      some ([⟨Dir.left, Color.black, 50,
          Tree.node Color.black (Tree.node Color.red Tree.nil 60 Tree.nil) 70
            (Tree.node Color.red Tree.nil 80 Tree.nil)⟩],
        Tree.node Color.black (Tree.node Color.red Tree.nil 20 Tree.nil) 30
          (Tree.node Color.red Tree.nil 40 Tree.nil)) ∧
    Tree.node Color.red Tree.nil 20 Tree.nil ≠ Tree.nil ∧
    Tree.node Color.red Tree.nil 40 Tree.nil ≠ Tree.nil ∧
    ((∃ yc yv yr,
        minSplit (Tree.node Color.red Tree.nil 40 Tree.nil) =
          ((minSplit (Tree.node Color.red Tree.nil 40 Tree.nil)).1,
            Tree.node yc Tree.nil yv yr) ∧
        (inorder (Tree.node Color.red Tree.nil 40 Tree.nil)).head? = some yv ∧
        deleteNode [⟨Dir.left, Color.black, 50,
            Tree.node Color.black (Tree.node Color.red Tree.nil 60 Tree.nil) 70
              (Tree.node Color.red Tree.nil 80 Tree.nil)⟩]
            (Tree.node Color.black (Tree.node Color.red Tree.nil 20 Tree.nil) 30
              (Tree.node Color.red Tree.nil 40 Tree.nil)) =
          (if yc = Color.black
           then deleteFixup ((minSplit (Tree.node Color.red Tree.nil 40 Tree.nil)).1 ++
              ⟨Dir.right, Color.black, yv, Tree.node Color.red Tree.nil 20 Tree.nil⟩ ::
              [⟨Dir.left, Color.black, 50,
                Tree.node Color.black (Tree.node Color.red Tree.nil 60 Tree.nil) 70
                  (Tree.node Color.red Tree.nil 80 Tree.nil)⟩]) yr
           else some (plugPath ((minSplit (Tree.node Color.red Tree.nil 40 Tree.nil)).1 ++
              ⟨Dir.right, Color.black, yv, Tree.node Color.red Tree.nil 20 Tree.nil⟩ ::
              [⟨Dir.left, Color.black, 50,
                Tree.node Color.black (Tree.node Color.red Tree.nil 60 Tree.nil) 70
                  (Tree.node Color.red Tree.nil 80 Tree.nil)⟩]) yr))) ∧
      (∃ t2, delete ⟨Tree.node Color.black
          (Tree.node Color.black (Tree.node Color.red Tree.nil 20 Tree.nil) 30
            (Tree.node Color.red Tree.nil 40 Tree.nil)) 50
          (Tree.node Color.black (Tree.node Color.red Tree.nil 60 Tree.nil) 70
            (Tree.node Color.red Tree.nil 80 Tree.nil)), 7⟩ 30 = some (true, t2) ∧
        inorder t2.root =
          (inorder (⟨Tree.node Color.black
            (Tree.node Color.black (Tree.node Color.red Tree.nil 20 Tree.nil) 30
              (Tree.node Color.red Tree.nil 40 Tree.nil)) 50
            (Tree.node Color.black (Tree.node Color.red Tree.nil 60 Tree.nil) 70
              (Tree.node Color.red Tree.nil 80 Tree.nil)), 7⟩ : RBTree).root).erase 30) ∧
      (runOps ((([50, 30, 70, 20, 40, 60, 80] : List Int).map Op.insert) ++
          [Op.delete 30])).map (fun u => inorder u.root) =
        some [20, 40, 50, 60, 70, 80]) :=
  ⟨by decide, by decide, by decide, by decide,
    C2_two_child_delete (by decide) (by decide) (by decide) (by decide)⟩

/-- C3: inserting any finite sequence of pairwise-distinct values makes the
in-order traversal visit exactly those values in strictly ascending order, and
deleting all of them afterwards leaves the empty tree: nil root, `Len() = 0`
and `Height() = -1`. -/
theorem C3_roundtrip (xs : List Int) (hnd : xs.Nodup) :
    (∃ t1, runOps (xs.map Op.insert) = some t1 ∧
      (inorder t1.root).Sorted (· < ·) ∧ List.Perm (inorder t1.root) xs) ∧
    (∃ t2, runOps (xs.map Op.insert ++ xs.map Op.delete) = some t2 ∧
      t2.root = Tree.nil ∧ len t2 = 0 ∧ heightT t2 = -1) := by
  constructor
  · obtain ⟨t1, h1, hinv1, hm1⟩ := runOps_ok (xs.map Op.insert)
    have hsorted := Inv_sorted hinv1
    refine ⟨t1, h1, hsorted, ?_⟩
    rw [List.perm_ext_iff_of_nodup (sorted_nodup hsorted) hnd]
    intro a
    have h2 : decide (a ∈ inorder t1.root) = decide (a ∈ xs) := by
      rw [hm1 a]
      show (xs.map Op.insert).foldl (memStep a) false = _
      rw [memModel_inserts a xs false, Bool.false_or]
    exact decide_eq_decide.1 h2
  · obtain ⟨t2, h1, hinv2, hm2⟩ := runOps_ok (xs.map Op.insert ++ xs.map Op.delete)
    have hempty : inorder t2.root = [] := by
      rw [List.eq_nil_iff_forall_not_mem]
      intro a ha
      have h3 := hm2 a
      rw [show memModel (xs.map Op.insert ++ xs.map Op.delete) a =
          (xs.map Op.delete).foldl (memStep a) ((xs.map Op.insert).foldl (memStep a) false)
          from by
            show (xs.map Op.insert ++ xs.map Op.delete).foldl (memStep a) false = _
            exact List.foldl_append _ _ _ _,
        memModel_inserts a xs false, memModel_deletes a xs] at h3
      simp [ha] at h3
    have hroot := eq_nil_of_inorder_eq_nil hempty
    have hsz : t2.size = 0 := by
      have h4 := Inv_size hinv2
      rw [hempty] at h4
      simpa using h4
    exact ⟨t2, h1, hroot, by simp [len, hsz], by simp [heightT, hroot, height]⟩

/-- Concrete instance of C3 at the distinct values 2, 1, 3. -/
theorem C3_roundtrip_witness :
    ([2, 1, 3] : List Int).Nodup ∧
    ((∃ t1, runOps (([2, 1, 3] : List Int).map Op.insert) = some t1 ∧
        (inorder t1.root).Sorted (· < ·) ∧ List.Perm (inorder t1.root) [2, 1, 3]) ∧
      (∃ t2, runOps (([2, 1, 3] : List Int).map Op.insert ++
          ([2, 1, 3] : List Int).map Op.delete) = some t2 ∧
        t2.root = Tree.nil ∧ len t2 = 0 ∧ heightT t2 = -1)) :=
  ⟨by decide, C3_roundtrip [2, 1, 3] (by decide)⟩

/-- C4: after any sequence of operations, `Search` answers exactly the
reference membership semantics: true for a value whose last insertion was not
followed by a deletion (or clear), false for a value never inserted or deleted
(or cleared) after its last insertion. -/
theorem C4_search_model (ops : List Op) (x : Int) :
    ∃ t, runOps ops = some t ∧ search x t.root = memModel ops x := by
  obtain ⟨t, h1, hinv, hm⟩ := runOps_ok ops
  refine ⟨t, h1, ?_⟩
  rw [← hm x]
  have hbst := (Inv_elim hinv).2.2.1
  by_cases hmem : x ∈ inorder t.root
  · rw [(search_iff_mem hbst).2 hmem]
    simp [hmem]
  · have hfalse : search x t.root = false := by
      rw [← Bool.not_eq_true]
      exact fun hc => hmem ((search_iff_mem hbst).1 hc)
    rw [hfalse]
    simp [hmem]

/-- C5: inserting a value already present in a valid tree is a no-op: the call
succeeds and returns the very same tree, so size, in-order sequence, shape and
coloring are all unchanged. -/
theorem C5_insert_noop {t : RBTree} {x : Int} (hinv : Inv t = true)
    (hmem : x ∈ inorder t.root) : insert t x = some t := by
  obtain ⟨t2, heq, _, hmm, _⟩ := @insert_ok t x hinv
  rw [heq, hmm hmem]

/-- Concrete instance of C5: re-inserting 5 into the singleton tree. -/
theorem C5_insert_noop_witness :
    Inv ⟨Tree.node Color.black Tree.nil 5 Tree.nil, 1⟩ = true ∧
    (5 : Int) ∈ inorder (⟨Tree.node Color.black Tree.nil 5 Tree.nil, 1⟩ : RBTree).root ∧
    insert ⟨Tree.node Color.black Tree.nil 5 Tree.nil, 1⟩ 5 =
      some ⟨Tree.node Color.black Tree.nil 5 Tree.nil, 1⟩ :=
  ⟨by decide, by decide, C5_insert_noop (by decide) (by decide)⟩

/-- C6: on a valid tree, `Delete` of an absent value returns false and leaves
the tree completely unchanged (same structure and size); `Delete` of a present
value returns true, removes exactly that value from the in-order sequence, and
decrements the size by one. -/
theorem C6_delete_semantics {t : RBTree} {x : Int} (hinv : Inv t = true) :
    ∃ b t2, delete t x = some (b, t2) ∧
      (x ∉ inorder t.root → b = false ∧ t2 = t) ∧
      (x ∈ inorder t.root → b = true ∧
        inorder t2.root = (inorder t.root).erase x ∧ t2.size = t.size - 1) := by
  obtain ⟨b, t2, h1, _, h3, h4⟩ := @delete_ok t x hinv
  exact ⟨b, t2, h1, h3, h4⟩

/-- Concrete instance of C6: deleting from the singleton tree. -/
theorem C6_delete_semantics_witness :
    Inv ⟨Tree.node Color.black Tree.nil 5 Tree.nil, 1⟩ = true ∧
    (∃ b t2, delete ⟨Tree.node Color.black Tree.nil 5 Tree.nil, 1⟩ 7 = some (b, t2) ∧
      ((7 : Int) ∉ inorder (⟨Tree.node Color.black Tree.nil 5 Tree.nil, 1⟩ : RBTree).root →
        b = false ∧ t2 = ⟨Tree.node Color.black Tree.nil 5 Tree.nil, 1⟩) ∧
      ((7 : Int) ∈ inorder (⟨Tree.node Color.black Tree.nil 5 Tree.nil, 1⟩ : RBTree).root →
        b = true ∧
        inorder t2.root =
          (inorder (⟨Tree.node Color.black Tree.nil 5 Tree.nil, 1⟩ : RBTree).root).erase 7 ∧
        t2.size = (⟨Tree.node Color.black Tree.nil 5 Tree.nil, 1⟩ : RBTree).size - 1)) :=
  ⟨by decide, @C6_delete_semantics ⟨Tree.node Color.black Tree.nil 5 Tree.nil, 1⟩ 7 (by decide)⟩

/-- C7: after any sequence of operations leaving n reachable nodes the height
(edges on the longest root-to-leaf path) is at most 2*log2(n+1); in particular
inserting 1,2,3,4,5 in ascending order yields height 2 or less. -/
theorem C7_height_log_bound (ops : List Op) :
    (∃ t, runOps ops = some t ∧
      heightT t ≤ 2 * (Nat.log 2 (count t.root + 1) : Int)) ∧
    (∃ t5, runOps (([1, 2, 3, 4, 5] : List Int).map Op.insert) = some t5 ∧
      heightT t5 ≤ 2) := by
  constructor
  · obtain ⟨t, h1, hinv, _⟩ := runOps_ok ops
    obtain ⟨hroot, hrb, _, _⟩ := Inv_elim hinv
    exact ⟨t, h1, height_le_two_log hrb hroot⟩
  · exact ⟨⟨Tree.node Color.black (Tree.node Color.black Tree.nil 1 Tree.nil) 2
      (Tree.node Color.black (Tree.node Color.red Tree.nil 3 Tree.nil) 4
        (Tree.node Color.red Tree.nil 5 Tree.nil)), 5⟩, by decide, by decide⟩

/-- C8: no absent node is ever dereferenced: on a valid tree, `Insert` and
`Delete` complete with a result, and the rebalancing loops, run with any
amount of fuel from a state satisfying their invariant (in particular the
grandparent read needs a red non-root parent, and the sibling reads need a
present sibling), never reach the nil-dereference outcome. -/
theorem C8_no_nil_dereference {t : RBTree} {x : Int} {p : Path} {n : Tree}
    {h : Nat} {q : Path} {m : Tree} {h2 : Nat}
    (hinv : Inv t = true)
    (hrb : IsRB n h) (hred : rootColor n = Color.red) (hsib : sibOk p h)
    (hch : p.Chain' redParentOk) (hlast : lastBlack p)
    (harb : ARB m h2) (hsib2 : sibOk q (h2 + 1)) (hch2 : q.Chain' redParentOk)
    (hlast2 : lastBlack q) :
    (insert t x).isSome = true ∧ (delete t x).isSome = true ∧
    (∀ fuel, insLoopF fuel p n ≠ some none) ∧
    (∀ fuel, dfLoopF fuel q m ≠ some none) := by
  refine ⟨?_, ?_, ?_, ?_⟩
  · obtain ⟨t2, heq, _⟩ := @insert_ok t x hinv
    rw [heq]
    rfl
  · obtain ⟨b, t2, heq, _⟩ := @delete_ok t x hinv
    rw [heq]
    rfl
  · intro fuel hcon
    obtain ⟨t2, hrun, _⟩ :=
      insLoop_ok (p.length + 1) p n h (by omega) hrb hred hsib hch hlast
    rcases insLoopF_stable fuel (p.length + 1) p n t2 hrun with hnone | hsome
    · rw [hcon] at hnone
      simp at hnone
    · rw [hcon] at hsome
      simp at hsome
  · intro fuel hcon
    obtain ⟨t2, hrun, _⟩ :=
      dfLoop_ok (q.length + 2) q m h2 (by omega) harb hsib2 hch2 hlast2
    rcases dfLoopF_stable fuel (q.length + 2) q m t2 hrun with hnone | hsome
    · rw [hcon] at hnone
      simp at hnone
    · rw [hcon] at hsome
      simp at hsome

/-- Concrete instance of C8: the empty tree, a fresh red focus for the insert
loop and a nil focus for the delete loop, both with an empty context. -/
theorem C8_no_nil_dereference_witness :
    Inv new = true ∧ IsRB (Tree.node Color.red Tree.nil 1 Tree.nil) 0 ∧
    rootColor (Tree.node Color.red Tree.nil 1 Tree.nil) = Color.red ∧
    sibOk [] 0 ∧ List.Chain' redParentOk ([] : Path) ∧ lastBlack [] ∧
    ARB Tree.nil 0 ∧ sibOk [] 1 ∧ List.Chain' redParentOk ([] : Path) ∧
    lastBlack [] ∧
    ((insert new 1).isSome = true ∧ (delete new 1).isSome = true ∧
      (∀ fuel, insLoopF fuel [] (Tree.node Color.red Tree.nil 1 Tree.nil) ≠ some none) ∧
      (∀ fuel, dfLoopF fuel [] Tree.nil ≠ some none)) :=
  ⟨by decide, IsRB.red IsRB.nil IsRB.nil rfl rfl, rfl, trivial, List.chain'_nil,
    trivial, ARB.ofRB IsRB.nil, trivial, List.chain'_nil, trivial,
    @C8_no_nil_dereference new 1 [] (Tree.node Color.red Tree.nil 1 Tree.nil) 0 []
      Tree.nil 0 (by decide) (IsRB.red IsRB.nil IsRB.nil rfl rfl) rfl trivial
      List.chain'_nil trivial (ARB.ofRB IsRB.nil) trivial List.chain'_nil trivial⟩

/-- C9: every public operation terminates.  Search, InOrderTraversal, Height,
Len, IsEmpty and Clear are structurally recursive, so the content is in the
loops: on a valid tree `Insert` and `Delete` return, and from any state
satisfying the loop invariant the insert-rebalance loop exits within
`p.length + 1` iterations and the delete-rebalance loop within `p.length + 2`
iterations — the working node moves strictly upward or the loop ends at the
root check. -/
theorem C9_termination {t : RBTree} {x : Int} {p : Path} {n : Tree}
    {h : Nat} {q : Path} {m : Tree} {h2 : Nat}
    (hinv : Inv t = true)
    (hrb : IsRB n h) (hred : rootColor n = Color.red) (hsib : sibOk p h)
    (hch : p.Chain' redParentOk) (hlast : lastBlack p)
    (harb : ARB m h2) (hsib2 : sibOk q (h2 + 1)) (hch2 : q.Chain' redParentOk)
    (hlast2 : lastBlack q) :
    insert t x ≠ none ∧ delete t x ≠ none ∧
    (∃ r, insLoopF (p.length + 1) p n = some (some r)) ∧
    (∃ r, dfLoopF (q.length + 2) q m = some (some r)) := by
  refine ⟨?_, ?_, ?_, ?_⟩
  · obtain ⟨t2, heq, _⟩ := @insert_ok t x hinv
    rw [heq]
    simp
  · obtain ⟨b, t2, heq, _⟩ := @delete_ok t x hinv
    rw [heq]
    simp
  · obtain ⟨t2, hrun, _⟩ :=
      insLoop_ok (p.length + 1) p n h (by omega) hrb hred hsib hch hlast
    exact ⟨t2, hrun⟩
  · obtain ⟨t2, hrun, _⟩ :=
      dfLoop_ok (q.length + 2) q m h2 (by omega) harb hsib2 hch2 hlast2
    exact ⟨t2, hrun⟩

/-- Concrete instance of C9: the singleton tree with a fresh red focus and a
nil delete focus, both with an empty context. -/
theorem C9_termination_witness :
    Inv ⟨Tree.node Color.black Tree.nil 4 Tree.nil, 1⟩ = true ∧
    IsRB (Tree.node Color.red Tree.nil 2 Tree.nil) 0 ∧
    rootColor (Tree.node Color.red Tree.nil 2 Tree.nil) = Color.red ∧
    sibOk [] 0 ∧ List.Chain' redParentOk ([] : Path) ∧ lastBlack [] ∧
    ARB Tree.nil 0 ∧ sibOk [] 1 ∧ List.Chain' redParentOk ([] : Path) ∧
    lastBlack [] ∧
    (insert ⟨Tree.node Color.black Tree.nil 4 Tree.nil, 1⟩ 2 ≠ none ∧
      delete ⟨Tree.node Color.black Tree.nil 4 Tree.nil, 1⟩ 2 ≠ none ∧
      (∃ r, insLoopF (List.length ([] : Path) + 1) []
        (Tree.node Color.red Tree.nil 2 Tree.nil) = some (some r)) ∧
      (∃ r, dfLoopF (List.length ([] : Path) + 2) [] Tree.nil = some (some r))) :=
  ⟨by decide, IsRB.red IsRB.nil IsRB.nil rfl rfl, rfl, trivial, List.chain'_nil,
    trivial, ARB.ofRB IsRB.nil, trivial, List.chain'_nil, trivial,
    @C9_termination ⟨Tree.node Color.black Tree.nil 4 Tree.nil, 1⟩ 2 []
      (Tree.node Color.red Tree.nil 2 Tree.nil) 0 [] Tree.nil 0 (by decide)
      (IsRB.red IsRB.nil IsRB.nil rfl rfl) rfl trivial List.chain'_nil trivial
      (ARB.ofRB IsRB.nil) trivial List.chain'_nil trivial⟩

end RBT
